import Mathlib

/-!
Verification of the XML coordinate-transform tool (src/transform_xml.py).

The program is embedded shallowly over `List Char`:

* `transform_coordinate` is the pure affine map from the source.
* `transform_xml_content` embeds the two `re.sub` passes over the content.
  The regular expression `<TAG>(-?\d+)</TAG>` is deterministic at each
  position (the digit run is maximal and must be followed immediately by
  the closing tag, and all regex backtracking fails), so each pass is the
  left-to-right scan `substTag`.  `\d` is modelled as an ASCII digit.
* `transform_filename` embeds `re.search` of `(-\d+)(-\d+)(\.xml)$` as the
  leftmost-position scan `fnSearch`; at a given start the match is forced,
  and Python's `$` accepts either the true end of the string or a position
  just before one final newline, which the embedding models explicitly.
* `process_xml_files` embeds the batch driver as a pure state transformer:
  the file system is a list of `FileEntry` values whose `content` field is
  `Except`-valued (an `error` models an exception raised while reading the
  file), the written files are returned as a list, and the console output
  is returned as a list of `Msg` values.

Recursions over strings are implemented with an explicit fuel argument
(initialised to the string length) so that every definition is structural
and computes by kernel reduction; fuel-independence lemmas below show the
fuel never runs out.
-/

set_option maxHeartbeats 1000000

namespace TransferXY

/-- transform_coordinate from the source: `-value + 25`. -/
def transform_coordinate (value : Int) : Int := -value + 25

/-! ## Decimal printing and parsing -/

/-- ASCII digit character with value `d` (for `d < 10`). -/
def digitChar (d : Nat) : Char := Char.ofNat (48 + d)

/-- Numeric value of an ASCII digit character. -/
def digitVal (c : Char) : Nat := c.toNat - 48

/-- Fueled little-endian digit list of a natural number. -/
def natDigitsRevF : Nat → Nat → List Char
  | 0, _ => []
  | f + 1, n => if n < 10 then [digitChar n] else digitChar (n % 10) :: natDigitsRevF f (n / 10)

/-- Decimal digits of a natural number, most significant first (Python `str`
on a non-negative int: no sign, no leading zeros). -/
def natToDigits (n : Nat) : List Char := (natDigitsRevF (n + 1) n).reverse

/-- Value of a digit string, most significant first. -/
def digitsVal (l : List Char) : Nat := l.foldl (fun a c => 10 * a + digitVal c) 0

/-- Decimal rendering of an integer as Python `str`: a sign only when
negative, no leading zeros. -/
def intToDigits (i : Int) : List Char :=
  if i < 0 then '-' :: natToDigits i.natAbs else natToDigits i.toNat

/-- Python `int()` on the optional-sign digit runs captured by the content
pattern. -/
def parseSD (l : List Char) : Int :=
  match l with
  | [] => 0
  | c :: ds => if c = '-' then -(digitsVal ds : Int) else (digitsVal (c :: ds) : Int)

/-- Python `int()` modelled fallibly on the shapes relevant to the captured
group: it succeeds exactly on an optional `-` followed by a nonempty ASCII
digit run, and `none` models the `ValueError` that `int` raises otherwise.
(The real `int()` also accepts surrounding whitespace, `+`, and underscores;
restricting to the optional-sign digit-run shapes is sound for proving that
the parse of a captured group cannot fail, because every captured group has
exactly this shape.) -/
def intParse? (l : List Char) : Option Int :=
  match l with
  | [] => none
  | c :: ds =>
    if c = '-' then
      if ds.isEmpty then none
      else if ds.all Char.isDigit then some (-(digitsVal ds : Int)) else none
    else
      if (c :: ds).all Char.isDigit then some (digitsVal (c :: ds) : Int) else none

/-! ## Literal and digit-run matching (the regex building blocks) -/

/-- Drop `p` as a literal prefix of `s`, returning the remainder. -/
def dropLead : List Char → List Char → Option (List Char)
  | [], s => some s
  | _ :: _, [] => none
  | a :: p, b :: s => if a = b then dropLead p s else none

/-- Split off the maximal leading ASCII digit run (the regex `\d+`, whose
backtracking always fails in the patterns at hand because the character
after the run is never a digit). -/
def spanDigits : List Char → List Char × List Char
  | [] => ([], [])
  | c :: s =>
    if c.isDigit then
      let p := spanDigits s
      (c :: p.1, p.2)
    else ([], c :: s)

/-- Consume an optional leading minus sign (the regex `-?`). -/
def takeSign : List Char → List Char × List Char
  | [] => ([], [])
  | c :: s => if c = '-' then (['-'], s) else ([], c :: s)

/-- Match `o` + optional sign + nonempty digit run + `cl` at the head of
`s`, returning the captured signed digit group and the rest of the string.
This is the content pattern `<TAG>(-?\d+)</TAG>` applied at one position. -/
def matchCoord (o cl s : List Char) : Option (List Char × List Char) :=
  (dropLead o s).bind fun s1 =>
    if (spanDigits (takeSign s1).2).1 = [] then none
    else
      (dropLead cl (spanDigits (takeSign s1).2).2).bind fun r =>
        some ((takeSign s1).1 ++ (spanDigits (takeSign s1).2).1, r)

/-! ## Content rewriting -/

def openX : List Char := "<X_COORD>".toList

def closeX : List Char := "</X_COORD>".toList

def openY : List Char := "<Y_COORD>".toList

def closeY : List Char := "</Y_COORD>".toList

/-- The replacement emitted by the `re.sub` callback for one match: the tag
pair around the decimal rendering of the transformed captured value. -/
def replCoord (o cl sd : List Char) : List Char :=
  o ++ intToDigits (transform_coordinate (parseSD sd)) ++ cl

/-- Fueled single-tag substitution pass: `re.sub` of the coordinate pattern,
scanning left to right and replacing non-overlapping matches. -/
def substTagF (o cl : List Char) : Nat → List Char → List Char
  | 0, s => s
  | _ + 1, [] => []
  | f + 1, c :: rest =>
    match matchCoord o cl (c :: rest) with
    | some (sd, r) => replCoord o cl sd ++ substTagF o cl f r
    | none => c :: substTagF o cl f rest

def substTag (o cl s : List Char) : List Char := substTagF o cl s.length s

/-- transform_xml_content from the source: the X_COORD pass followed by the
Y_COORD pass. -/
def transform_xml_content (content : List Char) : List Char :=
  substTag openY closeY (substTag openX closeX content)

/-- Fueled single simultaneous pass replacing every non-overlapping X or Y
coordinate match left to right, leaving all other characters unchanged. -/
def rewriteSpecF : Nat → List Char → List Char
  | 0, s => s
  | _ + 1, [] => []
  | f + 1, c :: rest =>
    match matchCoord openX closeX (c :: rest) with
    | some (sd, r) => replCoord openX closeX sd ++ rewriteSpecF f r
    | none =>
      match matchCoord openY closeY (c :: rest) with
      | some (sd, r) => replCoord openY closeY sd ++ rewriteSpecF f r
      | none => c :: rewriteSpecF f rest

/-- The content rewrite as the claim words it: one left-to-right pass that
replaces each non-overlapping tagged-number occurrence and copies every
other character. -/
def contentRewriteSpec (s : List Char) : List Char := rewriteSpecF s.length s

/-- Fueled check that every coordinate numeral matched in the content is in
canonical decimal form (what the printer produces back after a round trip). -/
def canonContentF : Nat → List Char → Bool
  | 0, _ => true
  | _ + 1, [] => true
  | f + 1, c :: rest =>
    match matchCoord openX closeX (c :: rest) with
    | some (sd, r) => (intToDigits (parseSD sd) == sd) && canonContentF f r
    | none =>
      match matchCoord openY closeY (c :: rest) with
      | some (sd, r) => (intToDigits (parseSD sd) == sd) && canonContentF f r
      | none => canonContentF f rest

def canonContent (s : List Char) : Bool := canonContentF s.length s

/-- Boolean scan: no coordinate match for this tag starts anywhere in `s`. -/
def noMatchScan (o cl : List Char) : List Char → Bool
  | [] => true
  | c :: rest => (matchCoord o cl (c :: rest)).isNone && noMatchScan o cl rest

/-- Fueled substitution pass with the callback's `int` parse modelled
fallibly: `none` models an exception escaping from `re.sub`. -/
def substTagOptF (o cl : List Char) : Nat → List Char → Option (List Char)
  | 0, s => some s
  | _ + 1, [] => some []
  | f + 1, c :: rest =>
    match matchCoord o cl (c :: rest) with
    | some (sd, r) =>
      match intParse? sd with
      | none => none
      | some v =>
        match substTagOptF o cl f r with
        | none => none
        | some t => some (o ++ intToDigits (transform_coordinate v) ++ cl ++ t)
    | none =>
      match substTagOptF o cl f rest with
      | none => none
      | some t => some (c :: t)

def substTagOpt (o cl s : List Char) : Option (List Char) := substTagOptF o cl s.length s

/-- transform_xml_content with each captured-group parse modelled fallibly. -/
def transform_xml_content_opt (content : List Char) : Option (List Char) :=
  (substTagOpt openX closeX content).bind (substTagOpt openY closeY)

/-! ## Filename rewriting -/

def extXml : List Char := ".xml".toList

/-- Attempt the filename pattern `(-\d+)(-\d+)(\.xml)$` anchored at this
position: dash, nonempty digit run, dash, nonempty digit run, `.xml`, then
the end of the string or a single final newline (Python `$` matches at the
end of the string or just before one newline at the end). -/
def fnMatchAt (l : List Char) : Option (List Char × List Char) :=
  (dropLead ['-'] l).bind fun l1 =>
    if (spanDigits l1).1 = [] then none
    else
      (dropLead ['-'] (spanDigits l1).2).bind fun l2 =>
        if (spanDigits l2).1 = [] then none
        else
          (dropLead extXml (spanDigits l2).2).bind fun r =>
            if r = [] ∨ r = ['\n'] then some ((spanDigits l1).1, (spanDigits l2).1)
            else none

/-- Leftmost search of the filename pattern (`re.search`): the text before
the match and the two captured digit groups. -/
def fnSearch : List Char → Option (List Char × List Char × List Char)
  | [] => none
  | c :: rest =>
    match fnMatchAt (c :: rest) with
    | some (d1, d2) => some ([], d1, d2)
    | none =>
      match fnSearch rest with
      | some (pre, d1, d2) => some (c :: pre, d1, d2)
      | none => none

/-- Left-pad a digit string with zeros to width `w`. -/
def padZeros (w : Nat) (l : List Char) : List Char :=
  List.replicate (w - l.length) '0' ++ l

/-- Python `f"{i:03d}"`: zero-padded to total width 3, with the sign of a
negative value embedded inside the field. -/
def padTo3 (i : Int) : List Char :=
  if i < 0 then '-' :: padZeros 2 (natToDigits i.natAbs) else padZeros 3 (natToDigits i.toNat)

/-- transform_filename from the source: rewrite the two trailing coordinate
groups when the pattern matches, identity fallback otherwise.  When the
match succeeds the name is rebuilt from everything before the match, so a
final newline accepted by `$` is dropped. -/
def transform_filename (filename : List Char) : List Char :=
  match fnSearch filename with
  | some (pre, d1, d2) =>
    pre ++ '-' :: padTo3 (transform_coordinate (digitsVal d1)) ++
      '-' :: padTo3 (transform_coordinate (digitsVal d2)) ++ extXml
  | none => filename

/-! ## Batch driver -/

/-- One input file as the driver sees it: its name, and either its decoded
text or the message of the exception raised while reading/decoding it. -/
structure FileEntry where
  name : List Char
  content : Except (List Char) (List Char)

/-- Console output of the driver, one constructor per print statement. -/
inductive Msg where
  | found : Nat → Msg
  | noFiles : Msg
  | success : List Char → List Char → Msg
  | failure : List Char → List Char → Msg
  | done : Msg
deriving DecidableEq

/-- The body of the per-file `try` block: read the content, transform it,
transform the name.  An `error` is the exception propagating to the
`except` handler; the transforms themselves are total. -/
def pipelineOne (f : FileEntry) : Except (List Char) (List Char × List Char) :=
  match f.content with
  | .ok c => .ok (transform_filename f.name, transform_xml_content c)
  | .error e => .error e

/-- One iteration of the driver loop: on success append the written file
and the success line, on an exception append only the failure line. -/
def stepFile (acc : List (List Char × List Char) × List Msg) (f : FileEntry) :
    List (List Char × List Char) × List Msg :=
  match pipelineOne f with
  | .ok out => (acc.1 ++ [out], acc.2 ++ [Msg.success f.name out.1])
  | .error e => (acc.1, acc.2 ++ [Msg.failure f.name e])

/-- process_xml_files from the source as a pure state transformer: the
files written to the output directory (name, content, in order) and the
console messages. -/
def process_xml_files (files : List FileEntry) : List (List Char × List Char) × List Msg :=
  if files.isEmpty then ([], [Msg.noFiles])
  else
    ((files.foldl stepFile ([], [Msg.found files.length])).1,
      (files.foldl stepFile ([], [Msg.found files.length])).2 ++ [Msg.done])

/-- The console line produced for one file. -/
def reportOf (f : FileEntry) : Msg :=
  match pipelineOne f with
  | .ok out => Msg.success f.name out.1
  | .error e => Msg.failure f.name e

/-- The file written for one input file, when its pipeline succeeds. -/
def okOut (f : FileEntry) : Option (List Char × List Char) :=
  (pipelineOne f).toOption

/-- A name ending in the pattern dash, digit run, dash, digit run, `.xml`
anchored at the true end of the string (the claim wording). -/
def EndsInPat (name : List Char) : Prop :=
  ∃ pre d1 d2 : List Char, d1 ≠ [] ∧ (∀ c ∈ d1, c.isDigit = true) ∧ d2 ≠ [] ∧
    (∀ c ∈ d2, c.isDigit = true) ∧ name = pre ++ '-' :: (d1 ++ '-' :: (d2 ++ extXml))

/-- A name ending in the pattern, allowing one final newline after `.xml`
(what Python `$` accepts). -/
def EndsInPatNl (name : List Char) : Prop :=
  ∃ pre d1 d2 r : List Char, d1 ≠ [] ∧ (∀ c ∈ d1, c.isDigit = true) ∧ d2 ≠ [] ∧
    (∀ c ∈ d2, c.isDigit = true) ∧ (r = [] ∨ r = ['\n']) ∧
    name = pre ++ '-' :: (d1 ++ '-' :: (d2 ++ (extXml ++ r)))

/-- Concrete batch scenario: two readable files and one whose read raises. -/
def demoFiles : List FileEntry :=
  [⟨"a-1-2.xml".toList, Except.ok "<X_COORD>3</X_COORD>".toList⟩,
   ⟨"bad.xml".toList, Except.error "read failed".toList⟩,
   ⟨"b-3-4.xml".toList, Except.ok "<Y_COORD>7</Y_COORD>".toList⟩]

/-- Shape of a captured coordinate group: an optional minus sign followed by
a nonempty ASCII digit run. -/
def SdShape (sd : List Char) : Prop :=
  ∃ ds, ds ≠ [] ∧ (∀ c ∈ ds, c.isDigit = true) ∧ (sd = ds ∨ sd = '-' :: ds)

/-- Boolean scan: the two-character sequence `a`, `b` occurs nowhere in the
list. -/
def noPairB (a b : Char) : List Char → Bool
  | [] => true
  | [_] => true
  | x :: y :: r => !(x == a && y == b) && noPairB a b (y :: r)

def tailX : List Char := "X_COORD>".toList

def tailY : List Char := "Y_COORD>".toList

/-! ## Lemmas about the matching primitives -/

theorem dropLead_eq_some : ∀ {p s r : List Char}, dropLead p s = some r → s = p ++ r := by
  intro p
  induction p with
  | nil =>
    intro s r h
    simp only [dropLead, Option.some.injEq] at h
    simp [h]
  | cons a p ih =>
    intro s r h
    cases s with
    | nil => simp [dropLead] at h
    | cons b s' =>
      by_cases hab : a = b
      · subst hab
        simp only [dropLead, if_pos rfl] at h
        simpa using ih h
      · simp [dropLead, hab] at h

theorem dropLead_append (p r : List Char) : dropLead p (p ++ r) = some r := by
  induction p with
  | nil => rfl
  | cons a p ih => simpa [dropLead] using ih

theorem dropLead_nil {a : Char} {p : List Char} : dropLead (a :: p) [] = none := rfl

theorem spanDigits_decomp : ∀ s : List Char, s = (spanDigits s).1 ++ (spanDigits s).2 := by
  intro s
  induction s with
  | nil => rfl
  | cons c s ih =>
    by_cases h : c.isDigit
    · simpa [spanDigits, h] using ih
    · simp [spanDigits, h]

theorem spanDigits_digits : ∀ (s : List Char), ∀ c ∈ (spanDigits s).1, c.isDigit = true := by
  intro s
  induction s with
  | nil => intro c hc; simp [spanDigits] at hc
  | cons a s ih =>
    intro c hc
    by_cases h : a.isDigit
    · simp only [spanDigits, h, if_pos] at hc
      rcases List.mem_cons.mp hc with rfl | hm
      · exact h
      · exact ih c hm
    · simp [spanDigits, h] at hc

theorem spanDigits_rest : ∀ (s : List Char) (c : Char) (t : List Char),
    (spanDigits s).2 = c :: t → c.isDigit = false := by
  intro s
  induction s with
  | nil => intro c t h; simp [spanDigits] at h
  | cons a s ih =>
    intro c t h
    by_cases ha : a.isDigit
    · exact ih c t (by simpa [spanDigits, ha] using h)
    · have h2 : a :: s = c :: t := by simpa [spanDigits, ha] using h
      injection h2 with h3 _
      rw [← h3]
      simpa using ha

theorem spanDigits_append {d r : List Char} (hd : ∀ c ∈ d, c.isDigit = true)
    (hr : ∀ c t, r = c :: t → c.isDigit = false) : spanDigits (d ++ r) = (d, r) := by
  induction d with
  | nil =>
    cases r with
    | nil => rfl
    | cons c t => simp [spanDigits, hr c t rfl]
  | cons a d ih =>
    have ha : a.isDigit = true := hd a (List.mem_cons_self a d)
    have := ih (fun c hc => hd c (List.mem_cons_of_mem a hc))
    simp [spanDigits, ha, this]

theorem takeSign_dash (s : List Char) : takeSign ('-' :: s) = (['-'], s) := by
  simp [takeSign]

theorem takeSign_no_dash {c : Char} (s : List Char) (h : c ≠ '-') :
    takeSign (c :: s) = ([], c :: s) := by
  simp [takeSign, h]

theorem isDigit_ne {c x : Char} (h : c.isDigit = true) (hx : x.isDigit = false) : c ≠ x := by
  intro he
  rw [he, hx] at h
  cases h

theorem sdShape_mem {sd : List Char} (h : SdShape sd) :
    ∀ c ∈ sd, c = '-' ∨ c.isDigit = true := by
  obtain ⟨ds, _, hdig, hc | hc⟩ := h <;> subst hc
  · exact fun c hc => Or.inr (hdig c hc)
  · intro c hc
    rcases List.mem_cons.mp hc with rfl | hm
    · exact Or.inl rfl
    · exact Or.inr (hdig c hm)

theorem matchCoord_eq_some {o cl s sd r : List Char}
    (h : matchCoord o cl s = some (sd, r)) :
    s = o ++ (sd ++ (cl ++ r)) ∧ SdShape sd := by
  unfold matchCoord at h
  cases h1 : dropLead o s with
  | none => rw [h1, Option.none_bind] at h; cases h
  | some s1 =>
    rw [h1, Option.some_bind] at h
    by_cases hnil : (spanDigits (takeSign s1).2).1 = []
    · rw [if_pos hnil] at h; cases h
    · rw [if_neg hnil] at h
      cases h2 : dropLead cl (spanDigits (takeSign s1).2).2 with
      | none => rw [h2, Option.none_bind] at h; cases h
      | some rr =>
        rw [h2, Option.some_bind] at h
        simp only [Option.some.injEq, Prod.mk.injEq] at h
        obtain ⟨hsd, hr⟩ := h
        have hs : s = o ++ s1 := dropLead_eq_some h1
        have hrest : (spanDigits (takeSign s1).2).2 = cl ++ rr := dropLead_eq_some h2
        have hdig := spanDigits_digits (takeSign s1).2
        have hdec : s1 = (takeSign s1).1 ++ (takeSign s1).2 := by
          cases s1 with
          | nil => rfl
          | cons c t =>
            by_cases hc : c = '-'
            · subst hc; rw [takeSign_dash]; rfl
            · rw [takeSign_no_dash t hc]; rfl
        have hsplit : s1 = (takeSign s1).1 ++ ((spanDigits (takeSign s1).2).1 ++ (cl ++ rr)) := by
          conv_lhs => rw [hdec]
          rw [← hrest, ← spanDigits_decomp]
        constructor
        · rw [hs, hsplit, ← hsd, ← hr]
          simp [List.append_assoc]
        · refine ⟨(spanDigits (takeSign s1).2).1, hnil, hdig, ?_⟩
          cases s1 with
          | nil => left; rw [← hsd]; rfl
          | cons c t =>
            by_cases hc : c = '-'
            · subst hc; right; rw [← hsd, takeSign_dash]; rfl
            · left; rw [← hsd, takeSign_no_dash t hc]; rfl

theorem matchCoord_append {o cl t sd : List Char} (hsd : SdShape sd)
    (hcl : ∃ u, cl = '<' :: u) :
    matchCoord o cl (o ++ (sd ++ (cl ++ t))) = some (sd, t) := by
  obtain ⟨ds, hne, hdig, hcases⟩ := hsd
  obtain ⟨u, hu⟩ := hcl
  have hclhead : ∀ c t0, cl ++ t = c :: t0 → c.isDigit = false := by
    intro c t0 hct
    rw [hu] at hct
    have : c = '<' := (List.cons.injEq _ _ _ _ ▸ hct).1.symm
    rw [this]
    decide
  have hspan : spanDigits (ds ++ (cl ++ t)) = (ds, cl ++ t) := spanDigits_append hdig hclhead
  rcases hcases with hc | hc
  · rw [hc]
    obtain ⟨d, ds', rfl⟩ : ∃ d ds', ds = d :: ds' := by
      cases ds with
      | nil => exact absurd rfl hne
      | cons d ds' => exact ⟨d, ds', rfl⟩
    have hd : d ≠ '-' := isDigit_ne (hdig d (List.mem_cons_self d ds')) (by decide)
    have hts : takeSign ((d :: ds') ++ (cl ++ t)) = ([], (d :: ds') ++ (cl ++ t)) :=
      takeSign_no_dash _ hd
    unfold matchCoord
    rw [dropLead_append]
    simp only [Option.some_bind, hts, hspan, if_neg hne, dropLead_append]
    rfl
  · rw [hc]
    have hts : takeSign (('-' :: ds) ++ (cl ++ t)) = (['-'], ds ++ (cl ++ t)) :=
      takeSign_dash _
    unfold matchCoord
    rw [dropLead_append]
    simp only [Option.some_bind, hts, hspan, if_neg hne, dropLead_append]
    rfl

theorem matchCoord_length {o cl s sd r : List Char}
    (h : matchCoord o cl s = some (sd, r)) (ho : o ≠ []) : r.length < s.length := by
  obtain ⟨hs, hsd⟩ := matchCoord_eq_some h
  have : 0 < o.length := List.length_pos.mpr ho
  rw [hs]
  simp only [List.length_append]
  omega

theorem matchCoord_none_head {o cl : List Char} {a x : Char} {o' s : List Char}
    (ho : o = a :: o') (hx : x ≠ a) : matchCoord o cl (x :: s) = none := by
  subst ho
  have hax : ¬ a = x := fun h => hx h.symm
  have hdl : dropLead (a :: o') (x :: s) = none := by
    simp [dropLead, hax]
  unfold matchCoord
  rw [hdl, Option.none_bind]

theorem matchCoord_none_second {o cl : List Char} {a b x y : Char} {o' s : List Char}
    (ho : o = a :: b :: o') (hy : y ≠ b) : matchCoord o cl (x :: y :: s) = none := by
  subst ho
  have hby : ¬ b = y := fun h => hy h.symm
  have hdl : dropLead (a :: b :: o') (x :: y :: s) = none := by
    by_cases hax : a = x
    · subst hax
      simp [dropLead, hby]
    · simp [dropLead, hax]
  unfold matchCoord
  rw [hdl, Option.none_bind]

theorem matchCoord_nil {o cl : List Char} {a : Char} {o' : List Char} (ho : o = a :: o') :
    matchCoord o cl [] = none := by
  subst ho
  unfold matchCoord
  rw [dropLead_nil, Option.none_bind]

/-! ## Lemmas about decimal printing and parsing -/

theorem natDigitsRevF_congr : ∀ f1 f2 n : Nat, n < f1 → n < f2 →
    natDigitsRevF f1 n = natDigitsRevF f2 n := by
  intro f1
  induction f1 with
  | zero => intro f2 n h; omega
  | succ k ih =>
    intro f2 n h1 h2
    cases f2 with
    | zero => omega
    | succ j =>
      by_cases h10 : n < 10
      · simp [natDigitsRevF, h10]
      · have hdiv : n / 10 < n := Nat.div_lt_self (by omega) (by omega)
        simp only [natDigitsRevF, if_neg h10]
        rw [ih j (n / 10) (by omega) (by omega)]

theorem natToDigits_lt10 {n : Nat} (h : n < 10) : natToDigits n = [digitChar n] := by
  unfold natToDigits natDigitsRevF
  simp [h]

theorem natToDigits_ge10 {n : Nat} (h : 10 ≤ n) :
    natToDigits n = natToDigits (n / 10) ++ [digitChar (n % 10)] := by
  have hdiv : n / 10 < n := Nat.div_lt_self (by omega) (by omega)
  unfold natToDigits
  rw [show natDigitsRevF (n + 1) n =
      digitChar (n % 10) :: natDigitsRevF n (n / 10) by simp [natDigitsRevF, Nat.not_lt.mpr h]]
  rw [natDigitsRevF_congr n (n / 10 + 1) (n / 10) hdiv (by omega)]
  simp

theorem digitChar_isDigit {d : Nat} (h : d < 10) : (digitChar d).isDigit = true := by
  interval_cases d <;> decide

theorem digitVal_digitChar {d : Nat} (h : d < 10) : digitVal (digitChar d) = d := by
  interval_cases d <;> decide

theorem natToDigits_ne_nil (n : Nat) : natToDigits n ≠ [] := by
  by_cases h : n < 10
  · rw [natToDigits_lt10 h]; simp
  · rw [natToDigits_ge10 (Nat.le_of_not_lt h)]; simp

theorem natToDigits_digits (n : Nat) : ∀ c ∈ natToDigits n, c.isDigit = true := by
  induction n using Nat.strong_induction_on with
  | _ n ih =>
    by_cases h : n < 10
    · rw [natToDigits_lt10 h]
      intro c hc
      rw [List.mem_singleton.mp hc]
      exact digitChar_isDigit h
    · rw [natToDigits_ge10 (Nat.le_of_not_lt h)]
      intro c hc
      rcases List.mem_append.mp hc with hm | hm
      · exact ih (n / 10) (Nat.div_lt_self (by omega) (by omega)) c hm
      · rw [List.mem_singleton.mp hm]
        exact digitChar_isDigit (Nat.mod_lt _ (by omega))

theorem digitsVal_append_last (l : List Char) (c : Char) :
    digitsVal (l ++ [c]) = 10 * digitsVal l + digitVal c := by
  unfold digitsVal
  rw [List.foldl_append]
  rfl

theorem digitsVal_natToDigits (n : Nat) : digitsVal (natToDigits n) = n := by
  induction n using Nat.strong_induction_on with
  | _ n ih =>
    by_cases h : n < 10
    · rw [natToDigits_lt10 h]
      show 10 * 0 + digitVal (digitChar n) = n
      rw [digitVal_digitChar h]
      omega
    · rw [natToDigits_ge10 (Nat.le_of_not_lt h), digitsVal_append_last,
        ih (n / 10) (Nat.div_lt_self (by omega) (by omega)),
        digitVal_digitChar (Nat.mod_lt _ (by omega))]
      omega

theorem intToDigits_sdShape (i : Int) : SdShape (intToDigits i) := by
  unfold intToDigits
  split
  · exact ⟨natToDigits i.natAbs, natToDigits_ne_nil _, natToDigits_digits _, Or.inr rfl⟩
  · exact ⟨natToDigits i.toNat, natToDigits_ne_nil _, natToDigits_digits _, Or.inl rfl⟩

theorem parseSD_dash (ds : List Char) : parseSD ('-' :: ds) = -(digitsVal ds : Int) := by
  simp [parseSD]

theorem parseSD_no_dash {c : Char} (ds : List Char) (h : c ≠ '-') :
    parseSD (c :: ds) = (digitsVal (c :: ds) : Int) := by
  simp [parseSD, h]

theorem parseSD_intToDigits (i : Int) : parseSD (intToDigits i) = i := by
  unfold intToDigits
  split
  · next h =>
    rw [parseSD_dash, digitsVal_natToDigits]
    omega
  · next h =>
    obtain ⟨c, ds, hcd⟩ : ∃ c ds, natToDigits i.toNat = c :: ds := by
      cases hl : natToDigits i.toNat with
      | nil => exact absurd hl (natToDigits_ne_nil _)
      | cons c ds => exact ⟨c, ds, rfl⟩
    have hc : c ≠ '-' :=
      isDigit_ne (natToDigits_digits i.toNat c (hcd ▸ List.mem_cons_self c ds)) (by decide)
    rw [hcd, parseSD_no_dash ds hc, ← hcd, digitsVal_natToDigits]
    omega

theorem intParse?_eq_some {sd : List Char} (h : SdShape sd) :
    intParse? sd = some (parseSD sd) := by
  obtain ⟨ds, hne, hdig, hc | hc⟩ := h
  · rw [hc]
    obtain ⟨d, ds', rfl⟩ : ∃ d ds', ds = d :: ds' := by
      cases ds with
      | nil => exact absurd rfl hne
      | cons d ds' => exact ⟨d, ds', rfl⟩
    have hd : d ≠ '-' := isDigit_ne (hdig d (List.mem_cons_self d ds')) (by decide)
    have hall : (d :: ds').all Char.isDigit = true := List.all_eq_true.mpr hdig
    rw [parseSD_no_dash ds' hd]
    simp [intParse?, hd, hall]
  · rw [hc]
    have hall : ds.all Char.isDigit = true := List.all_eq_true.mpr hdig
    have hemp : ds.isEmpty = false := by
      cases ds with
      | nil => exact absurd rfl hne
      | cons d ds' => rfl
    rw [parseSD_dash]
    simp [intParse?, hemp, hall]

/-! ## Tag-constant shapes -/

theorem openX_pair : openX = '<' :: 'X' :: "_COORD>".toList := by decide

theorem openY_pair : openY = '<' :: 'Y' :: "_COORD>".toList := by decide

theorem openX_ne_nil : openX ≠ [] := by decide

theorem openY_ne_nil : openY ≠ [] := by decide

theorem closeX_lt : ∃ u, closeX = '<' :: u := ⟨"/X_COORD>".toList, by decide⟩

theorem closeY_lt : ∃ u, closeY = '<' :: u := ⟨"/Y_COORD>".toList, by decide⟩

/-! ## Fuel-independence and unfolding of the content passes -/

theorem substTagF_congr {o cl : List Char} (ho : o ≠ []) :
    ∀ f1 f2 s, s.length ≤ f1 → s.length ≤ f2 →
      substTagF o cl f1 s = substTagF o cl f2 s := by
  intro f1
  induction f1 with
  | zero =>
    intro f2 s h1 _
    have hs : s = [] := List.eq_nil_of_length_eq_zero (Nat.le_zero.mp h1)
    subst hs
    cases f2 <;> rfl
  | succ k ih =>
    intro f2 s h1 h2
    cases s with
    | nil => cases f2 <;> rfl
    | cons c rest =>
      cases f2 with
      | zero => simp at h2
      | succ j =>
        cases hm : matchCoord o cl (c :: rest) with
        | some p =>
          obtain ⟨sd, r⟩ := p
          have hlt : r.length < (c :: rest).length := matchCoord_length hm ho
          simp only [substTagF, hm]
          rw [ih j r (by simp at hlt h1 ⊢; omega) (by simp at hlt h2 ⊢; omega)]
        | none =>
          simp only [substTagF, hm]
          rw [ih j rest (by simp at h1; omega) (by simp at h2; omega)]

theorem substTag_nil (o cl : List Char) : substTag o cl [] = [] := rfl

theorem substTag_cons_some {o cl : List Char} {c : Char} {rest sd r : List Char} (ho : o ≠ [])
    (h : matchCoord o cl (c :: rest) = some (sd, r)) :
    substTag o cl (c :: rest) = replCoord o cl sd ++ substTag o cl r := by
  have hlt : r.length < (c :: rest).length := matchCoord_length h ho
  show substTagF o cl (c :: rest).length (c :: rest) = _
  rw [show (c :: rest).length = rest.length + 1 from rfl]
  simp only [substTagF, h]
  rw [substTagF_congr ho rest.length r.length r (by simp at hlt; omega) le_rfl]
  rfl

theorem substTag_cons_none {o cl : List Char} {c : Char} {rest : List Char}
    (h : matchCoord o cl (c :: rest) = none) :
    substTag o cl (c :: rest) = c :: substTag o cl rest := by
  show substTagF o cl (c :: rest).length (c :: rest) = _
  rw [show (c :: rest).length = rest.length + 1 from rfl]
  simp only [substTagF, h]
  rfl

theorem rewriteSpecF_congr : ∀ f1 f2 s, s.length ≤ f1 → s.length ≤ f2 →
    rewriteSpecF f1 s = rewriteSpecF f2 s := by
  intro f1
  induction f1 with
  | zero =>
    intro f2 s h1 _
    have hs : s = [] := List.eq_nil_of_length_eq_zero (Nat.le_zero.mp h1)
    subst hs
    cases f2 <;> rfl
  | succ k ih =>
    intro f2 s h1 h2
    cases s with
    | nil => cases f2 <;> rfl
    | cons c rest =>
      cases f2 with
      | zero => simp at h2
      | succ j =>
        cases hmx : matchCoord openX closeX (c :: rest) with
        | some p =>
          obtain ⟨sd, r⟩ := p
          have hlt : r.length < (c :: rest).length := matchCoord_length hmx openX_ne_nil
          simp only [rewriteSpecF, hmx]
          rw [ih j r (by simp at hlt h1 ⊢; omega) (by simp at hlt h2 ⊢; omega)]
        | none =>
          cases hmy : matchCoord openY closeY (c :: rest) with
          | some p =>
            obtain ⟨sd, r⟩ := p
            have hlt : r.length < (c :: rest).length := matchCoord_length hmy openY_ne_nil
            simp only [rewriteSpecF, hmx, hmy]
            rw [ih j r (by simp at hlt h1 ⊢; omega) (by simp at hlt h2 ⊢; omega)]
          | none =>
            simp only [rewriteSpecF, hmx, hmy]
            rw [ih j rest (by simp at h1; omega) (by simp at h2; omega)]

theorem rewriteSpec_nil : contentRewriteSpec [] = [] := rfl

theorem rewriteSpec_cons_x {c : Char} {rest sd r : List Char}
    (h : matchCoord openX closeX (c :: rest) = some (sd, r)) :
    contentRewriteSpec (c :: rest) = replCoord openX closeX sd ++ contentRewriteSpec r := by
  have hlt : r.length < (c :: rest).length := matchCoord_length h openX_ne_nil
  show rewriteSpecF (c :: rest).length (c :: rest) = _
  rw [show (c :: rest).length = rest.length + 1 from rfl]
  simp only [rewriteSpecF, h]
  rw [rewriteSpecF_congr rest.length r.length r (by simp at hlt; omega) le_rfl]
  rfl

theorem rewriteSpec_cons_y {c : Char} {rest sd r : List Char}
    (hx : matchCoord openX closeX (c :: rest) = none)
    (h : matchCoord openY closeY (c :: rest) = some (sd, r)) :
    contentRewriteSpec (c :: rest) = replCoord openY closeY sd ++ contentRewriteSpec r := by
  have hlt : r.length < (c :: rest).length := matchCoord_length h openY_ne_nil
  show rewriteSpecF (c :: rest).length (c :: rest) = _
  rw [show (c :: rest).length = rest.length + 1 from rfl]
  simp only [rewriteSpecF, hx, h]
  rw [rewriteSpecF_congr rest.length r.length r (by simp at hlt; omega) le_rfl]
  rfl

theorem rewriteSpec_cons_none {c : Char} {rest : List Char}
    (hx : matchCoord openX closeX (c :: rest) = none)
    (hy : matchCoord openY closeY (c :: rest) = none) :
    contentRewriteSpec (c :: rest) = c :: contentRewriteSpec rest := by
  show rewriteSpecF (c :: rest).length (c :: rest) = _
  rw [show (c :: rest).length = rest.length + 1 from rfl]
  simp only [rewriteSpecF, hx, hy]
  rfl

theorem canonContentF_congr : ∀ f1 f2 s, s.length ≤ f1 → s.length ≤ f2 →
    canonContentF f1 s = canonContentF f2 s := by
  intro f1
  induction f1 with
  | zero =>
    intro f2 s h1 _
    have hs : s = [] := List.eq_nil_of_length_eq_zero (Nat.le_zero.mp h1)
    subst hs
    cases f2 <;> rfl
  | succ k ih =>
    intro f2 s h1 h2
    cases s with
    | nil => cases f2 <;> rfl
    | cons c rest =>
      cases f2 with
      | zero => simp at h2
      | succ j =>
        cases hmx : matchCoord openX closeX (c :: rest) with
        | some p =>
          obtain ⟨sd, r⟩ := p
          have hlt : r.length < (c :: rest).length := matchCoord_length hmx openX_ne_nil
          simp only [canonContentF, hmx]
          rw [ih j r (by simp at hlt h1 ⊢; omega) (by simp at hlt h2 ⊢; omega)]
        | none =>
          cases hmy : matchCoord openY closeY (c :: rest) with
          | some p =>
            obtain ⟨sd, r⟩ := p
            have hlt : r.length < (c :: rest).length := matchCoord_length hmy openY_ne_nil
            simp only [canonContentF, hmx, hmy]
            rw [ih j r (by simp at hlt h1 ⊢; omega) (by simp at hlt h2 ⊢; omega)]
          | none =>
            simp only [canonContentF, hmx, hmy]
            rw [ih j rest (by simp at h1; omega) (by simp at h2; omega)]

theorem canonContent_cons_x {c : Char} {rest sd r : List Char}
    (h : matchCoord openX closeX (c :: rest) = some (sd, r)) :
    canonContent (c :: rest) = ((intToDigits (parseSD sd) == sd) && canonContent r) := by
  have hlt : r.length < (c :: rest).length := matchCoord_length h openX_ne_nil
  show canonContentF (c :: rest).length (c :: rest) = _
  rw [show (c :: rest).length = rest.length + 1 from rfl]
  simp only [canonContentF, h]
  rw [canonContentF_congr rest.length r.length r (by simp at hlt; omega) le_rfl]
  rfl

theorem canonContent_cons_y {c : Char} {rest sd r : List Char}
    (hx : matchCoord openX closeX (c :: rest) = none)
    (h : matchCoord openY closeY (c :: rest) = some (sd, r)) :
    canonContent (c :: rest) = ((intToDigits (parseSD sd) == sd) && canonContent r) := by
  have hlt : r.length < (c :: rest).length := matchCoord_length h openY_ne_nil
  show canonContentF (c :: rest).length (c :: rest) = _
  rw [show (c :: rest).length = rest.length + 1 from rfl]
  simp only [canonContentF, hx, h]
  rw [canonContentF_congr rest.length r.length r (by simp at hlt; omega) le_rfl]
  rfl

theorem canonContent_cons_none {c : Char} {rest : List Char}
    (hx : matchCoord openX closeX (c :: rest) = none)
    (hy : matchCoord openY closeY (c :: rest) = none) :
    canonContent (c :: rest) = canonContent rest := by
  show canonContentF (c :: rest).length (c :: rest) = _
  rw [show (c :: rest).length = rest.length + 1 from rfl]
  simp only [canonContentF, hx, hy]
  rfl

theorem substTagOptF_congr {o cl : List Char} (ho : o ≠ []) :
    ∀ f1 f2 s, s.length ≤ f1 → s.length ≤ f2 →
      substTagOptF o cl f1 s = substTagOptF o cl f2 s := by
  intro f1
  induction f1 with
  | zero =>
    intro f2 s h1 _
    have hs : s = [] := List.eq_nil_of_length_eq_zero (Nat.le_zero.mp h1)
    subst hs
    cases f2 <;> rfl
  | succ k ih =>
    intro f2 s h1 h2
    cases s with
    | nil => cases f2 <;> rfl
    | cons c rest =>
      cases f2 with
      | zero => simp at h2
      | succ j =>
        cases hm : matchCoord o cl (c :: rest) with
        | some p =>
          obtain ⟨sd, r⟩ := p
          have hlt : r.length < (c :: rest).length := matchCoord_length hm ho
          simp only [substTagOptF, hm]
          rw [ih j r (by simp at hlt h1 ⊢; omega) (by simp at hlt h2 ⊢; omega)]
        | none =>
          simp only [substTagOptF, hm]
          rw [ih j rest (by simp at h1; omega) (by simp at h2; omega)]

theorem substTagOpt_cons_some {o cl : List Char} {c : Char} {rest sd r : List Char} (ho : o ≠ [])
    (h : matchCoord o cl (c :: rest) = some (sd, r)) :
    substTagOpt o cl (c :: rest) =
      match intParse? sd with
      | none => none
      | some v =>
        match substTagOpt o cl r with
        | none => none
        | some t => some (o ++ intToDigits (transform_coordinate v) ++ cl ++ t) := by
  have hlt : r.length < (c :: rest).length := matchCoord_length h ho
  show substTagOptF o cl (c :: rest).length (c :: rest) = _
  rw [show (c :: rest).length = rest.length + 1 from rfl]
  simp only [substTagOptF, h]
  rw [substTagOptF_congr ho rest.length r.length r (by simp at hlt; omega) le_rfl]
  rfl

theorem substTagOpt_cons_none {o cl : List Char} {c : Char} {rest : List Char}
    (h : matchCoord o cl (c :: rest) = none) :
    substTagOpt o cl (c :: rest) =
      match substTagOpt o cl rest with
      | none => none
      | some t => some (c :: t) := by
  show substTagOptF o cl (c :: rest).length (c :: rest) = _
  rw [show (c :: rest).length = rest.length + 1 from rfl]
  simp only [substTagOptF, h]
  rfl

/-! ## Skipping inert prefixes -/

/-- A substitution pass copies a prefix in which no match can start: no
character of `u` is the second tag character, and `u` does not end in the
first one. -/
theorem substTag_append_inert {o cl : List Char} {a b : Char} {o' : List Char}
    (ho : o = a :: b :: o') :
    ∀ u t : List Char, b ∉ u → u.getLast? ≠ some a →
      substTag o cl (u ++ t) = u ++ substTag o cl t := by
  intro u
  induction u with
  | nil => intro t _ _; rfl
  | cons x u' ih =>
    intro t hb hl
    cases u' with
    | nil =>
      have hx : x ≠ a := by
        intro he
        exact hl (by rw [he]; rfl)
      have hnone : matchCoord o cl (x :: t) = none := matchCoord_none_head ho hx
      simp only [List.cons_append, List.nil_append]
      rw [substTag_cons_none hnone]
    | cons y u'' =>
      have hy : y ≠ b := by
        intro he
        exact hb (by rw [← he]; exact List.mem_cons_of_mem x (List.mem_cons_self y u''))
      have hnone : matchCoord o cl (x :: y :: (u'' ++ t)) = none := matchCoord_none_second ho hy
      have hb' : b ∉ y :: u'' := fun hm => hb (List.mem_cons_of_mem x hm)
      have hl' : (y :: u'').getLast? ≠ some a := by
        rwa [List.getLast?_cons_cons] at hl
      have ih' := ih t hb' hl'
      simp only [List.cons_append] at ih' ⊢
      rw [substTag_cons_none hnone, ih']

theorem getLast?_append_of_some {α : Type} {u v : List α} {a : α} (h : v.getLast? = some a) :
    (u ++ v).getLast? = some a := by
  rw [List.getLast?_append, h]
  rfl

/-! ## Pair-freeness and reflection of matches through a pass -/

theorem noPairB_drop {a b : Char} :
    ∀ w : List Char, noPairB a b w = true → ∀ p t, w.drop p ≠ a :: b :: t := by
  intro w
  induction w with
  | nil => intro _ p t h; simp at h
  | cons x w' ih =>
    intro h p t
    cases w' with
    | nil =>
      cases p with
      | zero => simp
      | succ p' => cases p' <;> simp
    | cons y w'' =>
      have h' : (¬x = a ∨ ¬y = b) ∧ noPairB a b (y :: w'') = true := by
        simpa [noPairB] using h
      cases p with
      | zero =>
        intro he
        injection he with he1 he2
        injection he2 with he2 _
        rcases h'.1 with hna | hnb
        · exact hna he1
        · exact hnb he2
      | succ p' => exact ih h'.2 p' t

theorem noPair_append {a b : Char} {u v : List Char} (hu : a ∉ u)
    (hv : ∀ p t, v.drop p ≠ a :: b :: t) : ∀ p t, (u ++ v).drop p ≠ a :: b :: t := by
  induction u with
  | nil => simpa using hv
  | cons x u' ih =>
    intro p t
    cases p with
    | zero =>
      intro he
      injection he with he1 _
      exact hu (by rw [he1]; exact List.mem_cons_self a u')
    | succ p' =>
      exact ih (fun hm => hu (List.mem_cons_of_mem x hm)) p' t

/-- Two lists appended to equal results: one is a prefix of the other. -/
theorem append_eq_append {α : Type} :
    ∀ (u a v b : List α), u ++ a = v ++ b →
      (∃ k, v = u ++ k) ∨ (∃ k, u = v ++ k) := by
  intro u
  induction u with
  | nil => intro a v b _; exact Or.inl ⟨v, rfl⟩
  | cons x u' ih =>
    intro a v b h
    cases v with
    | nil => exact Or.inr ⟨x :: u', rfl⟩
    | cons y v' =>
      injection h with h1 h2
      rcases ih a v' b h2 with ⟨k, hk⟩ | ⟨k, hk⟩
      · subst h1
        exact Or.inl ⟨k, by rw [List.cons_append, hk]⟩
      · subst h1
        exact Or.inr ⟨k, by rw [List.cons_append, hk]⟩

theorem sd_chars_not {sd : List Char} (h : SdShape sd) {x : Char}
    (hx : x.isDigit = false) (hd : x ≠ '-') : x ∉ sd := by
  intro hm
  rcases sdShape_mem h x hm with he | hdig
  · exact hd he
  · exact isDigit_ne hdig hx rfl

theorem not_mem_intToDigits {i : Int} {x : Char} (hx : x.isDigit = false) (hd : x ≠ '-') :
    x ∉ intToDigits i :=
  sd_chars_not (intToDigits_sdShape i) hx hd

/-- A prefix of the output of one substitution pass that never contains the
opening tag reflects to a prefix of the input. -/
theorem substTag_reflect {o cl : List Char} (ho : o ≠ []) :
    ∀ (u w t1 : List Char), (∀ p t, w.drop p ≠ o ++ t) →
      substTag o cl u = w ++ t1 → ∃ t2, u = w ++ t2 := by
  intro u
  induction u with
  | nil =>
    intro w t1 _ heq
    rw [substTag_nil] at heq
    have hw : w = [] := by
      cases w with
      | nil => rfl
      | cons x w' => cases heq
    exact ⟨[], by rw [hw]; rfl⟩
  | cons c rest ih =>
    intro w t1 hw heq
    cases hm : matchCoord o cl (c :: rest) with
    | some p =>
      obtain ⟨sd, r⟩ := p
      rw [substTag_cons_some ho hm] at heq
      have heq2 : o ++ (intToDigits (transform_coordinate (parseSD sd)) ++ cl ++
          substTag o cl r) = w ++ t1 := by
        rw [← heq]
        simp [replCoord, List.append_assoc]
      rcases append_eq_append o _ w t1 heq2 with ⟨k, hk⟩ | ⟨k, hk⟩
      · exact absurd (by rw [List.drop_zero, hk] : w.drop 0 = o ++ k) (hw 0 k)
      · obtain ⟨hdec, _⟩ := matchCoord_eq_some hm
        refine ⟨k ++ (sd ++ (cl ++ r)), ?_⟩
        rw [hdec, hk]
        simp [List.append_assoc]
    | none =>
      rw [substTag_cons_none hm] at heq
      cases w with
      | nil => exact ⟨c :: rest, rfl⟩
      | cons cw w' =>
        injection heq with h1 h2
        have hw' : ∀ p t, w'.drop p ≠ o ++ t := fun p t => hw (p + 1) t
        obtain ⟨t2, ht2⟩ := ih w' t1 hw' h2
        exact ⟨t2, by rw [← h1, List.cons_append, ht2]⟩

/-- A prefix of the output of the one-pass rewrite that never contains
either opening tag reflects to a prefix of the input. -/
theorem rewriteSpec_reflect :
    ∀ (u w t1 : List Char),
      (∀ p t, w.drop p ≠ openX ++ t) → (∀ p t, w.drop p ≠ openY ++ t) →
      contentRewriteSpec u = w ++ t1 → ∃ t2, u = w ++ t2 := by
  intro u
  induction u with
  | nil =>
    intro w t1 _ _ heq
    rw [rewriteSpec_nil] at heq
    have hw : w = [] := by
      cases w with
      | nil => rfl
      | cons x w' => cases heq
    exact ⟨[], by rw [hw]; rfl⟩
  | cons c rest ih =>
    intro w t1 hwx hwy heq
    cases hmx : matchCoord openX closeX (c :: rest) with
    | some p =>
      obtain ⟨sd, r⟩ := p
      rw [rewriteSpec_cons_x hmx] at heq
      have heq2 : openX ++ (intToDigits (transform_coordinate (parseSD sd)) ++ closeX ++
          contentRewriteSpec r) = w ++ t1 := by
        rw [← heq]
        simp [replCoord, List.append_assoc]
      rcases append_eq_append openX _ w t1 heq2 with ⟨k, hk⟩ | ⟨k, hk⟩
      · exact absurd (by rw [List.drop_zero, hk] : w.drop 0 = openX ++ k) (hwx 0 k)
      · obtain ⟨hdec, _⟩ := matchCoord_eq_some hmx
        refine ⟨k ++ (sd ++ (closeX ++ r)), ?_⟩
        rw [hdec, hk]
        simp [List.append_assoc]
    | none =>
      cases hmy : matchCoord openY closeY (c :: rest) with
      | some p =>
        obtain ⟨sd, r⟩ := p
        rw [rewriteSpec_cons_y hmx hmy] at heq
        have heq2 : openY ++ (intToDigits (transform_coordinate (parseSD sd)) ++ closeY ++
            contentRewriteSpec r) = w ++ t1 := by
          rw [← heq]
          simp [replCoord, List.append_assoc]
        rcases append_eq_append openY _ w t1 heq2 with ⟨k, hk⟩ | ⟨k, hk⟩
        · exact absurd (by rw [List.drop_zero, hk] : w.drop 0 = openY ++ k) (hwy 0 k)
        · obtain ⟨hdec, _⟩ := matchCoord_eq_some hmy
          refine ⟨k ++ (sd ++ (closeY ++ r)), ?_⟩
          rw [hdec, hk]
          simp [List.append_assoc]
      | none =>
        rw [rewriteSpec_cons_none hmx hmy] at heq
        cases w with
        | nil => exact ⟨c :: rest, rfl⟩
        | cons cw w' =>
          injection heq with h1 h2
          obtain ⟨t2, ht2⟩ :=
            ih w' t1 (fun p t => hwx (p + 1) t) (fun p t => hwy (p + 1) t) h2
          exact ⟨t2, by rw [← h1, List.cons_append, ht2]⟩

theorem openX_eq_cons : openX = '<' :: tailX := by decide

theorem openY_eq_cons : openY = '<' :: tailY := by decide

/-- Turn absence of the two leading tag characters into absence of the tag. -/
theorem drop_ne_open {w oo : List Char} {a b : Char} {tl : List Char}
    (hop : ∀ p t', w.drop p ≠ a :: b :: t') (ho : oo = a :: b :: tl) :
    ∀ p t', w.drop p ≠ oo ++ t' := by
  intro p t' he
  exact hop p (tl ++ t') (by rw [he, ho]; simp [List.cons_append])

theorem not_lt_mem_sd {sd : List Char} (hsd : SdShape sd) : '<' ∉ sd :=
  sd_chars_not hsd (by decide) (by decide)

/-- A Y match found at a copied character of the X pass reflects to a Y
match at the same place in the input. -/
theorem matchY_reflect_substX {c : Char} {rest sd t : List Char}
    (h : matchCoord openY closeY (c :: substTag openX closeX rest) = some (sd, t)) :
    ∃ t2, matchCoord openY closeY (c :: rest) = some (sd, t2) := by
  obtain ⟨hdec, hsd⟩ := matchCoord_eq_some h
  rw [openY_eq_cons] at hdec
  have hdec' : c :: substTag openX closeX rest = '<' :: (tailY ++ (sd ++ (closeY ++ t))) := by
    simpa [List.cons_append] using hdec
  injection hdec' with h1 h2
  have h2' : substTag openX closeX rest = ((tailY ++ sd) ++ closeY) ++ t := by
    rw [h2]
    simp [List.append_assoc]
  have hlt : '<' ∉ tailY ++ sd := by
    intro hm
    rcases List.mem_append.mp hm with hm | hm
    · exact absurd hm (by decide)
    · exact not_lt_mem_sd hsd hm
  have hnp : ∀ p t', ((tailY ++ sd) ++ closeY).drop p ≠ '<' :: 'X' :: t' :=
    noPair_append hlt (noPairB_drop closeY (by decide))
  have hw : ∀ p t', ((tailY ++ sd) ++ closeY).drop p ≠ openX ++ t' :=
    drop_ne_open hnp openX_pair
  obtain ⟨t2, ht2⟩ := substTag_reflect openX_ne_nil rest _ t hw h2'
  refine ⟨t2, ?_⟩
  have hform : c :: rest = openY ++ (sd ++ (closeY ++ t2)) := by
    rw [ht2, openY_eq_cons, h1]
    simp [List.cons_append, List.append_assoc]
  rw [hform]
  exact matchCoord_append hsd closeY_lt

/-- An X match found at a copied character of the one-pass rewrite reflects
to an X match at the same place in the input. -/
theorem matchX_reflect_spec {c : Char} {rest sd t : List Char}
    (h : matchCoord openX closeX (c :: contentRewriteSpec rest) = some (sd, t)) :
    ∃ t2, matchCoord openX closeX (c :: rest) = some (sd, t2) := by
  obtain ⟨hdec, hsd⟩ := matchCoord_eq_some h
  rw [openX_eq_cons] at hdec
  have hdec' : c :: contentRewriteSpec rest = '<' :: (tailX ++ (sd ++ (closeX ++ t))) := by
    simpa [List.cons_append] using hdec
  injection hdec' with h1 h2
  have h2' : contentRewriteSpec rest = ((tailX ++ sd) ++ closeX) ++ t := by
    rw [h2]
    simp [List.append_assoc]
  have hlt : '<' ∉ tailX ++ sd := by
    intro hm
    rcases List.mem_append.mp hm with hm | hm
    · exact absurd hm (by decide)
    · exact not_lt_mem_sd hsd hm
  have hwx : ∀ p t', ((tailX ++ sd) ++ closeX).drop p ≠ openX ++ t' :=
    drop_ne_open (noPair_append hlt (noPairB_drop closeX (by decide))) openX_pair
  have hwy : ∀ p t', ((tailX ++ sd) ++ closeX).drop p ≠ openY ++ t' :=
    drop_ne_open (noPair_append hlt (noPairB_drop closeX (by decide))) openY_pair
  obtain ⟨t2, ht2⟩ := rewriteSpec_reflect rest _ t hwx hwy h2'
  refine ⟨t2, ?_⟩
  have hform : c :: rest = openX ++ (sd ++ (closeX ++ t2)) := by
    rw [ht2, openX_eq_cons, h1]
    simp [List.cons_append, List.append_assoc]
  rw [hform]
  exact matchCoord_append hsd closeX_lt

/-- A Y match found at a copied character of the one-pass rewrite reflects
to a Y match at the same place in the input. -/
theorem matchY_reflect_spec {c : Char} {rest sd t : List Char}
    (h : matchCoord openY closeY (c :: contentRewriteSpec rest) = some (sd, t)) :
    ∃ t2, matchCoord openY closeY (c :: rest) = some (sd, t2) := by
  obtain ⟨hdec, hsd⟩ := matchCoord_eq_some h
  rw [openY_eq_cons] at hdec
  have hdec' : c :: contentRewriteSpec rest = '<' :: (tailY ++ (sd ++ (closeY ++ t))) := by
    simpa [List.cons_append] using hdec
  injection hdec' with h1 h2
  have h2' : contentRewriteSpec rest = ((tailY ++ sd) ++ closeY) ++ t := by
    rw [h2]
    simp [List.append_assoc]
  have hlt : '<' ∉ tailY ++ sd := by
    intro hm
    rcases List.mem_append.mp hm with hm | hm
    · exact absurd hm (by decide)
    · exact not_lt_mem_sd hsd hm
  have hwx : ∀ p t', ((tailY ++ sd) ++ closeY).drop p ≠ openX ++ t' :=
    drop_ne_open (noPair_append hlt (noPairB_drop closeY (by decide))) openX_pair
  have hwy : ∀ p t', ((tailY ++ sd) ++ closeY).drop p ≠ openY ++ t' :=
    drop_ne_open (noPair_append hlt (noPairB_drop closeY (by decide))) openY_pair
  obtain ⟨t2, ht2⟩ := rewriteSpec_reflect rest _ t hwx hwy h2'
  refine ⟨t2, ?_⟩
  have hform : c :: rest = openY ++ (sd ++ (closeY ++ t2)) := by
    rw [ht2, openY_eq_cons, h1]
    simp [List.cons_append, List.append_assoc]
  rw [hform]
  exact matchCoord_append hsd closeY_lt

/-! ## The two passes equal the one-pass rewrite -/

theorem two_pass_aux : ∀ n s, s.length ≤ n →
    substTag openY closeY (substTag openX closeX s) = contentRewriteSpec s := by
  intro n
  induction n with
  | zero =>
    intro s h
    have hs : s = [] := List.eq_nil_of_length_eq_zero (Nat.le_zero.mp h)
    subst hs
    rfl
  | succ k ih =>
    intro s hlen
    cases s with
    | nil => rfl
    | cons c rest =>
      cases hmx : matchCoord openX closeX (c :: rest) with
      | some p =>
        obtain ⟨sd, r⟩ := p
        have hlt := matchCoord_length hmx openX_ne_nil
        rw [substTag_cons_some openX_ne_nil hmx]
        have hYnot : 'Y' ∉ replCoord openX closeX sd := by
          unfold replCoord
          intro hm
          rcases List.mem_append.mp hm with hm | hm
          · rcases List.mem_append.mp hm with hm | hm
            · exact absurd hm (by decide)
            · exact not_mem_intToDigits (by decide) (by decide) hm
          · exact absurd hm (by decide)
        have hlast : (replCoord openX closeX sd).getLast? = some '>' := by
          unfold replCoord
          exact getLast?_append_of_some (by decide : closeX.getLast? = some '>')
        rw [substTag_append_inert openY_pair _ _ hYnot (by rw [hlast]; decide)]
        rw [ih r (by simp at hlt hlen ⊢; omega)]
        rw [rewriteSpec_cons_x hmx]
      | none =>
        cases hmy : matchCoord openY closeY (c :: rest) with
        | some p =>
          obtain ⟨sd, r⟩ := p
          have hlt := matchCoord_length hmy openY_ne_nil
          obtain ⟨hdec, hsd⟩ := matchCoord_eq_some hmy
          have hXnot : 'X' ∉ openY ++ (sd ++ closeY) := by
            intro hm
            rcases List.mem_append.mp hm with hm | hm
            · exact absurd hm (by decide)
            · rcases List.mem_append.mp hm with hm | hm
              · exact sd_chars_not hsd (by decide) (by decide) hm
              · exact absurd hm (by decide)
          have hlast : (openY ++ (sd ++ closeY)).getLast? = some '>' :=
            getLast?_append_of_some (getLast?_append_of_some
              (by decide : closeY.getLast? = some '>'))
          have hstep1 : substTag openX closeX (c :: rest) =
              (openY ++ (sd ++ closeY)) ++ substTag openX closeX r := by
            rw [hdec]
            rw [show openY ++ (sd ++ (closeY ++ r)) = (openY ++ (sd ++ closeY)) ++ r by
              simp [List.append_assoc]]
            rw [substTag_append_inert openX_pair _ _ hXnot (by rw [hlast]; decide)]
          rw [hstep1]
          have hmatch : matchCoord openY closeY
              ((openY ++ (sd ++ closeY)) ++ substTag openX closeX r) =
              some (sd, substTag openX closeX r) := by
            rw [show (openY ++ (sd ++ closeY)) ++ substTag openX closeX r =
                openY ++ (sd ++ (closeY ++ substTag openX closeX r)) by
              simp [List.append_assoc]]
            exact matchCoord_append hsd closeY_lt
          have hform : (openY ++ (sd ++ closeY)) ++ substTag openX closeX r =
              '<' :: (tailY ++ (sd ++ closeY) ++ substTag openX closeX r) := by
            rw [openY_eq_cons]
            simp [List.cons_append, List.append_assoc]
          rw [hform] at hmatch ⊢
          rw [substTag_cons_some openY_ne_nil hmatch]
          rw [ih r (by simp at hlt hlen ⊢; omega)]
          rw [rewriteSpec_cons_y hmx hmy]
        | none =>
          rw [substTag_cons_none hmx]
          have hnone : matchCoord openY closeY (c :: substTag openX closeX rest) = none := by
            cases hm2 : matchCoord openY closeY (c :: substTag openX closeX rest) with
            | none => rfl
            | some p =>
              obtain ⟨sd, t⟩ := p
              obtain ⟨t2, ht2⟩ := matchY_reflect_substX hm2
              rw [ht2] at hmy
              cases hmy
          rw [substTag_cons_none hnone]
          rw [ih rest (by simp at hlen; omega)]
          rw [rewriteSpec_cons_none hmx hmy]

/-- The X pass followed by the Y pass is the simultaneous one-pass rewrite. -/
theorem two_pass_eq_spec (s : List Char) :
    transform_xml_content s = contentRewriteSpec s :=
  two_pass_aux s.length s le_rfl

theorem transform_involution (v : Int) :
    transform_coordinate (transform_coordinate v) = v := by
  unfold transform_coordinate
  ring

/-! ## Double application of the rewrite on canonical content -/

theorem spec_double : ∀ n s, s.length ≤ n → canonContent s = true →
    contentRewriteSpec (contentRewriteSpec s) = s := by
  intro n
  induction n with
  | zero =>
    intro s h _
    have hs : s = [] := List.eq_nil_of_length_eq_zero (Nat.le_zero.mp h)
    subst hs
    rfl
  | succ k ih =>
    intro s hlen hcan
    cases s with
    | nil => rfl
    | cons c rest =>
      cases hmx : matchCoord openX closeX (c :: rest) with
      | some p =>
        obtain ⟨sd, r⟩ := p
        have hlt := matchCoord_length hmx openX_ne_nil
        obtain ⟨hdec, hsd⟩ := matchCoord_eq_some hmx
        have hcan' : intToDigits (parseSD sd) = sd ∧ canonContent r = true := by
          rw [canonContent_cons_x hmx] at hcan
          simpa using hcan
        rw [rewriteSpec_cons_x hmx]
        have hmidsd : SdShape (intToDigits (transform_coordinate (parseSD sd))) :=
          intToDigits_sdShape _
        have hmatch2 : matchCoord openX closeX
            (replCoord openX closeX sd ++ contentRewriteSpec r) =
            some (intToDigits (transform_coordinate (parseSD sd)), contentRewriteSpec r) := by
          rw [show replCoord openX closeX sd ++ contentRewriteSpec r =
              openX ++ (intToDigits (transform_coordinate (parseSD sd)) ++
                (closeX ++ contentRewriteSpec r)) by simp [replCoord, List.append_assoc]]
          exact matchCoord_append hmidsd closeX_lt
        have hform : replCoord openX closeX sd ++ contentRewriteSpec r =
            '<' :: (tailX ++ (intToDigits (transform_coordinate (parseSD sd)) ++
              (closeX ++ contentRewriteSpec r))) := by
          rw [show replCoord openX closeX sd ++ contentRewriteSpec r =
              openX ++ (intToDigits (transform_coordinate (parseSD sd)) ++
                (closeX ++ contentRewriteSpec r)) by simp [replCoord, List.append_assoc]]
          rw [openX_eq_cons]
          rfl
        rw [hform] at hmatch2 ⊢
        rw [rewriteSpec_cons_x hmatch2]
        rw [ih r (by simp at hlt hlen ⊢; omega) hcan'.2]
        have hrepl : replCoord openX closeX (intToDigits (transform_coordinate (parseSD sd))) =
            openX ++ (sd ++ closeX) := by
          unfold replCoord
          rw [parseSD_intToDigits, transform_involution, hcan'.1]
          simp [List.append_assoc]
        rw [hrepl, hdec]
        simp [List.append_assoc]
      | none =>
        cases hmy : matchCoord openY closeY (c :: rest) with
        | some p =>
          obtain ⟨sd, r⟩ := p
          have hlt := matchCoord_length hmy openY_ne_nil
          obtain ⟨hdec, hsd⟩ := matchCoord_eq_some hmy
          have hcan' : intToDigits (parseSD sd) = sd ∧ canonContent r = true := by
            rw [canonContent_cons_y hmx hmy] at hcan
            simpa using hcan
          rw [rewriteSpec_cons_y hmx hmy]
          have hmidsd : SdShape (intToDigits (transform_coordinate (parseSD sd))) :=
            intToDigits_sdShape _
          have hmatch2 : matchCoord openY closeY
              (replCoord openY closeY sd ++ contentRewriteSpec r) =
              some (intToDigits (transform_coordinate (parseSD sd)), contentRewriteSpec r) := by
            rw [show replCoord openY closeY sd ++ contentRewriteSpec r =
                openY ++ (intToDigits (transform_coordinate (parseSD sd)) ++
                  (closeY ++ contentRewriteSpec r)) by simp [replCoord, List.append_assoc]]
            exact matchCoord_append hmidsd closeY_lt
          have hcons : replCoord openY closeY sd ++ contentRewriteSpec r =
              '<' :: 'Y' :: ("_COORD>".toList ++
                (intToDigits (transform_coordinate (parseSD sd)) ++
                  (closeY ++ contentRewriteSpec r))) := by
            unfold replCoord
            rw [openY_pair]
            simp [List.cons_append, List.append_assoc]
          have hnox : matchCoord openX closeX
              (replCoord openY closeY sd ++ contentRewriteSpec r) = none := by
            rw [hcons]
            exact matchCoord_none_second openX_pair (by decide)
          rw [hcons] at hmatch2 hnox ⊢
          rw [rewriteSpec_cons_y hnox hmatch2]
          rw [ih r (by simp at hlt hlen ⊢; omega) hcan'.2]
          have hrepl : replCoord openY closeY
              (intToDigits (transform_coordinate (parseSD sd))) =
              openY ++ (sd ++ closeY) := by
            unfold replCoord
            rw [parseSD_intToDigits, transform_involution, hcan'.1]
            simp [List.append_assoc]
          rw [hrepl, hdec]
          simp [List.append_assoc]
        | none =>
          have hcan' : canonContent rest = true := by
            rwa [canonContent_cons_none hmx hmy] at hcan
          rw [rewriteSpec_cons_none hmx hmy]
          have hnx : matchCoord openX closeX (c :: contentRewriteSpec rest) = none := by
            cases hm2 : matchCoord openX closeX (c :: contentRewriteSpec rest) with
            | none => rfl
            | some p =>
              obtain ⟨sd, t⟩ := p
              obtain ⟨t2, ht2⟩ := matchX_reflect_spec hm2
              rw [ht2] at hmx
              cases hmx
          have hny : matchCoord openY closeY (c :: contentRewriteSpec rest) = none := by
            cases hm2 : matchCoord openY closeY (c :: contentRewriteSpec rest) with
            | none => rfl
            | some p =>
              obtain ⟨sd, t⟩ := p
              obtain ⟨t2, ht2⟩ := matchY_reflect_spec hm2
              rw [ht2] at hmy
              cases hmy
          rw [rewriteSpec_cons_none hnx hny]
          rw [ih rest (by simp at hlen; omega) hcan']

theorem content_double_of_canon {s : List Char} (h : canonContent s = true) :
    transform_xml_content (transform_xml_content s) = s := by
  rw [two_pass_eq_spec, two_pass_eq_spec]
  exact spec_double s.length s le_rfl h

/-! ## Identity on match-free content -/

theorem substTag_id {o cl : List Char} :
    ∀ s, (∀ p, matchCoord o cl (s.drop p) = none) → substTag o cl s = s := by
  intro s
  induction s with
  | nil => intro _; rfl
  | cons c rest ih =>
    intro h
    rw [substTag_cons_none (h 0), ih (fun p => h (p + 1))]

theorem noMatchScan_none {o cl : List Char} {a : Char} {o' : List Char} (ho : o = a :: o') :
    ∀ s, noMatchScan o cl s = true → ∀ p, matchCoord o cl (s.drop p) = none := by
  intro s
  induction s with
  | nil =>
    intro _ p
    rw [List.drop_nil]
    exact matchCoord_nil ho
  | cons c rest ih =>
    intro h p
    have h' : matchCoord o cl (c :: rest) = none ∧ noMatchScan o cl rest = true := by
      simpa [noMatchScan, Option.isNone_iff_eq_none] using h
    cases p with
    | zero => exact h'.1
    | succ p' => exact ih h'.2 p'

theorem content_id_of_noMatch {s : List Char}
    (hx : noMatchScan openX closeX s = true) (hy : noMatchScan openY closeY s = true) :
    transform_xml_content s = s := by
  unfold transform_xml_content
  rw [substTag_id s (noMatchScan_none openX_pair s hx)]
  rw [substTag_id s (noMatchScan_none openY_pair s hy)]

/-! ## The fallible parse never fails inside the rewrite -/

theorem substTagOpt_eq {o cl : List Char} (ho : o ≠ []) :
    ∀ n s, s.length ≤ n → substTagOpt o cl s = some (substTag o cl s) := by
  intro n
  induction n with
  | zero =>
    intro s h
    have hs : s = [] := List.eq_nil_of_length_eq_zero (Nat.le_zero.mp h)
    subst hs
    rfl
  | succ k ih =>
    intro s hlen
    cases s with
    | nil => rfl
    | cons c rest =>
      cases hm : matchCoord o cl (c :: rest) with
      | some p =>
        obtain ⟨sd, r⟩ := p
        have hlt := matchCoord_length hm ho
        obtain ⟨_, hsd⟩ := matchCoord_eq_some hm
        rw [substTagOpt_cons_some ho hm, substTag_cons_some ho hm]
        rw [intParse?_eq_some hsd, ih r (by simp at hlt hlen ⊢; omega)]
        simp [replCoord, List.append_assoc]
      | none =>
        rw [substTagOpt_cons_none hm, substTag_cons_none hm, ih rest (by simp at hlen; omega)]

theorem transform_xml_content_opt_eq (s : List Char) :
    transform_xml_content_opt s = some (transform_xml_content s) := by
  unfold transform_xml_content_opt transform_xml_content
  rw [substTagOpt_eq openX_ne_nil s.length s le_rfl, Option.some_bind]
  exact substTagOpt_eq openY_ne_nil _ _ le_rfl

/-! ## Filename pattern lemmas -/

theorem fnMatchAt_eq_some {l d1 d2 : List Char} (h : fnMatchAt l = some (d1, d2)) :
    d1 ≠ [] ∧ (∀ c ∈ d1, c.isDigit = true) ∧ d2 ≠ [] ∧ (∀ c ∈ d2, c.isDigit = true) ∧
    ∃ r, (r = [] ∨ r = ['\n']) ∧ l = '-' :: (d1 ++ '-' :: (d2 ++ (extXml ++ r))) := by
  unfold fnMatchAt at h
  cases h1 : dropLead ['-'] l with
  | none => rw [h1, Option.none_bind] at h; cases h
  | some l1 =>
    rw [h1, Option.some_bind] at h
    by_cases hn1 : (spanDigits l1).1 = []
    · rw [if_pos hn1] at h; cases h
    rw [if_neg hn1] at h
    cases h2 : dropLead ['-'] (spanDigits l1).2 with
    | none => rw [h2, Option.none_bind] at h; cases h
    | some l2 =>
      rw [h2, Option.some_bind] at h
      by_cases hn2 : (spanDigits l2).1 = []
      · rw [if_pos hn2] at h; cases h
      rw [if_neg hn2] at h
      cases h4 : dropLead extXml (spanDigits l2).2 with
      | none => rw [h4, Option.none_bind] at h; cases h
      | some r =>
        rw [h4, Option.some_bind] at h
        by_cases h5 : r = [] ∨ r = ['\n']
        swap
        · rw [if_neg h5] at h; cases h
        rw [if_pos h5] at h
        simp only [Option.some.injEq, Prod.mk.injEq] at h
        obtain ⟨hd1, hd2⟩ := h
        refine ⟨by rw [← hd1]; exact hn1, by rw [← hd1]; exact spanDigits_digits l1,
          by rw [← hd2]; exact hn2, by rw [← hd2]; exact spanDigits_digits l2, r, h5, ?_⟩
        have hl : l = '-' :: l1 := dropLead_eq_some h1
        have hl1 : l1 = d1 ++ '-' :: l2 := by
          conv_lhs => rw [spanDigits_decomp l1]
          rw [hd1, dropLead_eq_some h2]
          rfl
        have hl2 : l2 = d2 ++ (extXml ++ r) := by
          conv_lhs => rw [spanDigits_decomp l2]
          rw [hd2, dropLead_eq_some h4]
        rw [hl, hl1, hl2]

theorem fnMatchAt_pattern {d1 d2 r : List Char} (h1 : d1 ≠ [])
    (hd1 : ∀ c ∈ d1, c.isDigit = true) (h2 : d2 ≠ [])
    (hd2 : ∀ c ∈ d2, c.isDigit = true) (hr : r = [] ∨ r = ['\n']) :
    fnMatchAt ('-' :: (d1 ++ '-' :: (d2 ++ (extXml ++ r)))) = some (d1, d2) := by
  have hspan1 : spanDigits (d1 ++ '-' :: (d2 ++ (extXml ++ r))) =
      (d1, '-' :: (d2 ++ (extXml ++ r))) := by
    refine spanDigits_append hd1 ?_
    intro c t hct
    injection hct with hc _
    rw [← hc]
    decide
  have hspan2 : spanDigits (d2 ++ (extXml ++ r)) = (d2, extXml ++ r) := by
    refine spanDigits_append hd2 ?_
    intro c t hct
    have : extXml ++ r = '.' :: ("xml".toList ++ r) := rfl
    rw [this] at hct
    injection hct with hc _
    rw [← hc]
    decide
  have hdash : ∀ s : List Char, dropLead ['-'] ('-' :: s) = some s := by
    intro s
    simp [dropLead]
  simp only [fnMatchAt, hspan1, hspan2, hdash, dropLead_append, Option.some_bind]
  simp [h1, h2, hr]

theorem fnSearch_nil : fnSearch [] = none := rfl

theorem fnSearch_cons_some {c : Char} {rest d1 d2 : List Char}
    (h : fnMatchAt (c :: rest) = some (d1, d2)) :
    fnSearch (c :: rest) = some ([], d1, d2) := by
  simp only [fnSearch]
  rw [h]

theorem fnSearch_cons_none {c : Char} {rest : List Char}
    (h : fnMatchAt (c :: rest) = none) :
    fnSearch (c :: rest) =
      match fnSearch rest with
      | some (pre, d1, d2) => some (c :: pre, d1, d2)
      | none => none := by
  simp only [fnSearch]
  rw [h]

/-- In a string ending with dash + digit run, the trailing digit run and the
text before its dash are uniquely determined. -/
theorem lastDash : ∀ (u1 : List Char) {d1 : List Char} (u2 : List Char) {d2 : List Char},
    '-' ∉ d1 → '-' ∉ d2 → u1 ++ '-' :: d1 = u2 ++ '-' :: d2 → u1 = u2 ∧ d1 = d2 := by
  intro u1
  induction u1 with
  | nil =>
    intro d1 u2 d2 hnd1 hnd2 heq
    cases u2 with
    | nil =>
      injection heq with _ h
      exact ⟨rfl, h⟩
    | cons y u2' =>
      injection heq with _ hrest
      have hmem : '-' ∈ d1 := by
        rw [hrest]
        exact List.mem_append.mpr (Or.inr (List.mem_cons_self '-' d2))
      exact absurd hmem hnd1
  | cons x u1' ih =>
    intro d1 u2 d2 hnd1 hnd2 heq
    cases u2 with
    | nil =>
      injection heq with _ hrest
      have hmem : '-' ∈ d2 := by
        rw [← hrest]
        exact List.mem_append.mpr (Or.inr (List.mem_cons_self '-' d1))
      exact absurd hmem hnd2
    | cons y u2' =>
      injection heq with hxy hrest
      obtain ⟨ha, hb⟩ := ih u2' hnd1 hnd2 hrest
      exact ⟨by rw [hxy, ha], hb⟩

theorem digit_run_no_dash {d : List Char} (hd : ∀ c ∈ d, c.isDigit = true) : '-' ∉ d := by
  intro hm
  exact absurd (hd '-' hm) (by decide)

theorem fnSearch_pattern : ∀ (pre : List Char) {d1 d2 : List Char},
    d1 ≠ [] → (∀ c ∈ d1, c.isDigit = true) → d2 ≠ [] → (∀ c ∈ d2, c.isDigit = true) →
    fnSearch (pre ++ '-' :: (d1 ++ '-' :: (d2 ++ extXml))) = some (pre, d1, d2) := by
  intro pre
  induction pre with
  | nil =>
    intro d1 d2 h1 hd1 h2 hd2
    have hm := fnMatchAt_pattern h1 hd1 h2 hd2 (Or.inl rfl)
    rw [List.append_nil] at hm
    exact fnSearch_cons_some hm
  | cons c pre' ih =>
    intro d1 d2 h1 hd1 h2 hd2
    have hnone : fnMatchAt (c :: (pre' ++ '-' :: (d1 ++ '-' :: (d2 ++ extXml)))) = none := by
      cases hm : fnMatchAt (c :: (pre' ++ '-' :: (d1 ++ '-' :: (d2 ++ extXml)))) with
      | none => rfl
      | some p =>
        obtain ⟨e1, e2⟩ := p
        obtain ⟨he1, hde1, he2, hde2, r, hr, heq⟩ := fnMatchAt_eq_some hm
        exfalso
        rcases hr with rfl | rfl
        · rw [List.append_nil] at heq
          have heq' : ((c :: pre' ++ '-' :: d1) ++ '-' :: d2) ++ extXml =
              ((('-' :: e1) ++ '-' :: e2)) ++ extXml := by
            simpa [List.cons_append, List.append_assoc] using heq
          have heq2 := List.append_cancel_right heq'
          obtain ⟨heq3, _⟩ := lastDash _ _ (digit_run_no_dash hd2) (digit_run_no_dash hde2) heq2
          obtain ⟨heq4, _⟩ := lastDash (c :: pre') [] (digit_run_no_dash hd1)
            (digit_run_no_dash hde1) (by simpa using heq3)
          exact List.cons_ne_nil c pre' heq4
        · have heq' : ((c :: pre' ++ '-' :: d1) ++ '-' :: d2) ++ extXml =
              ((('-' :: e1) ++ '-' :: e2) ++ extXml) ++ ['\n'] := by
            simpa [List.cons_append, List.append_assoc] using heq
          have hlast := congrArg List.getLast? heq'
          rw [getLast?_append_of_some (show extXml.getLast? = some 'l' by decide)] at hlast
          rw [getLast?_append_of_some
            (show (['\n'] : List Char).getLast? = some '\n' by decide)] at hlast
          exact absurd hlast (by decide)
    rw [show (c :: pre') ++ '-' :: (d1 ++ '-' :: (d2 ++ extXml)) =
        c :: (pre' ++ '-' :: (d1 ++ '-' :: (d2 ++ extXml))) from rfl]
    rw [fnSearch_cons_none hnone, ih h1 hd1 h2 hd2]

theorem fnSearch_eq_some : ∀ {name pre d1 d2 : List Char},
    fnSearch name = some (pre, d1, d2) →
    d1 ≠ [] ∧ (∀ c ∈ d1, c.isDigit = true) ∧ d2 ≠ [] ∧ (∀ c ∈ d2, c.isDigit = true) ∧
    ∃ r, (r = [] ∨ r = ['\n']) ∧
      name = pre ++ '-' :: (d1 ++ '-' :: (d2 ++ (extXml ++ r))) := by
  intro name
  induction name with
  | nil => intro pre d1 d2 h; cases h
  | cons c rest ih =>
    intro pre d1 d2 h
    cases hm : fnMatchAt (c :: rest) with
    | some p =>
      obtain ⟨e1, e2⟩ := p
      rw [fnSearch_cons_some hm] at h
      simp only [Option.some.injEq, Prod.mk.injEq] at h
      obtain ⟨hp, h1, h2⟩ := h
      obtain ⟨he1, hde1, he2, hde2, r, hr, heq⟩ := fnMatchAt_eq_some hm
      subst h1
      subst h2
      refine ⟨he1, hde1, he2, hde2, r, hr, ?_⟩
      rw [← hp, List.nil_append]
      exact heq
    | none =>
      rw [fnSearch_cons_none hm] at h
      cases hs : fnSearch rest with
      | none => rw [hs] at h; cases h
      | some q =>
        obtain ⟨pre', e1, e2⟩ := q
        rw [hs] at h
        simp only [Option.some.injEq, Prod.mk.injEq] at h
        obtain ⟨hp, h1, h2⟩ := h
        obtain ⟨he1, hde1, he2, hde2, r, hr, heq⟩ := ih hs
        subst h1
        subst h2
        refine ⟨he1, hde1, he2, hde2, r, hr, ?_⟩
        rw [← hp, List.cons_append, heq]

theorem transform_filename_some {name pre d1 d2 : List Char}
    (h : fnSearch name = some (pre, d1, d2)) :
    transform_filename name = pre ++ '-' :: padTo3 (transform_coordinate (digitsVal d1)) ++
      '-' :: padTo3 (transform_coordinate (digitsVal d2)) ++ extXml := by
  unfold transform_filename
  rw [h]

theorem transform_filename_none {name : List Char} (h : fnSearch name = none) :
    transform_filename name = name := by
  unfold transform_filename
  rw [h]

/-- Behaviour of the filename rewriter on a name with the trailing pattern. -/
theorem transform_filename_pattern {pre d1 d2 : List Char}
    (h1 : d1 ≠ []) (hd1 : ∀ c ∈ d1, c.isDigit = true)
    (h2 : d2 ≠ []) (hd2 : ∀ c ∈ d2, c.isDigit = true) :
    transform_filename (pre ++ '-' :: (d1 ++ '-' :: (d2 ++ extXml))) =
      pre ++ '-' :: padTo3 (transform_coordinate (digitsVal d1)) ++
        '-' :: padTo3 (transform_coordinate (digitsVal d2)) ++ extXml :=
  transform_filename_some (fnSearch_pattern pre h1 hd1 h2 hd2)

/-! ## Zero padding -/

theorem digitsVal_padZeros (w : Nat) (l : List Char) :
    digitsVal (padZeros w l) = digitsVal l := by
  unfold padZeros
  generalize w - l.length = k
  induction k with
  | zero => rfl
  | succ k ih =>
    rw [List.replicate_succ, List.cons_append]
    unfold digitsVal at ih ⊢
    rw [List.foldl_cons]
    have h0 : 10 * 0 + digitVal '0' = 0 := by decide
    simp only [h0]
    exact ih

theorem padZeros_digits {l : List Char} (hl : ∀ c ∈ l, c.isDigit = true) (w : Nat) :
    ∀ c ∈ padZeros w l, c.isDigit = true := by
  intro c hc
  unfold padZeros at hc
  rcases List.mem_append.mp hc with hm | hm
  · rw [List.eq_of_mem_replicate hm]
    decide
  · exact hl c hm

theorem padZeros_ne_nil {l : List Char} (hl : l ≠ []) (w : Nat) : padZeros w l ≠ [] := by
  unfold padZeros
  intro h
  exact hl (List.append_eq_nil.mp h).2

theorem padTo3_nonneg {i : Int} (h : 0 ≤ i) :
    padTo3 i = padZeros 3 (natToDigits i.toNat) := by
  unfold padTo3
  rw [if_neg (not_lt.mpr h)]

theorem padTo3_neg {i : Int} (h : i < 0) :
    padTo3 i = '-' :: padZeros 2 (natToDigits i.natAbs) := by
  unfold padTo3
  rw [if_pos h]

/-! ## Batch driver lemmas -/

theorem foldl_stepFile : ∀ (files : List FileEntry)
    (acc : List (List Char × List Char) × List Msg),
    files.foldl stepFile acc =
      (acc.1 ++ files.filterMap okOut, acc.2 ++ files.map reportOf) := by
  intro files
  induction files with
  | nil => intro acc; simp
  | cons f fs ih =>
    intro acc
    rw [List.foldl_cons, ih]
    cases hp : pipelineOne f with
    | ok out =>
      simp [stepFile, okOut, reportOf, hp, Except.toOption, List.append_assoc]
    | error e =>
      simp [stepFile, okOut, reportOf, hp, Except.toOption, List.append_assoc]

theorem process_xml_files_eq {files : List FileEntry} (h : files ≠ []) :
    process_xml_files files =
      (files.filterMap okOut,
        Msg.found files.length :: (files.map reportOf ++ [Msg.done])) := by
  unfold process_xml_files
  rw [if_neg (by simpa [List.isEmpty_iff] using h)]
  rw [foldl_stepFile]
  simp

/-! ## Last characters of pattern-shaped names -/

theorem getLast?_pattern (pre d1 d2 z : List Char) {a : Char} (hz : z.getLast? = some a) :
    (pre ++ '-' :: (d1 ++ '-' :: (d2 ++ z))).getLast? = some a := by
  apply getLast?_append_of_some
  rw [show ('-' :: (d1 ++ '-' :: (d2 ++ z))) = ['-'] ++ (d1 ++ '-' :: (d2 ++ z)) from rfl]
  apply getLast?_append_of_some
  apply getLast?_append_of_some
  rw [show ('-' :: (d2 ++ z)) = ['-'] ++ (d2 ++ z) from rfl]
  apply getLast?_append_of_some
  exact getLast?_append_of_some hz

theorem endsPatNl_getLast {name : List Char} (h : EndsInPatNl name) :
    name.getLast? = some 'l' ∨ name.getLast? = some '\n' := by
  obtain ⟨pre, d1, d2, r, _, _, _, _, hr, heq⟩ := h
  rcases hr with rfl | rfl
  · left
    rw [heq, List.append_nil]
    exact getLast?_pattern pre d1 d2 extXml (by decide)
  · right
    rw [heq]
    exact getLast?_pattern pre d1 d2 (extXml ++ ['\n'])
      (getLast?_append_of_some (by decide))

theorem intToDigits_head_dash (i : Int) : (intToDigits i).head? = some '-' ↔ i < 0 := by
  unfold intToDigits
  split
  · next h => simp [h]
  · next h =>
    obtain ⟨c, ds, hcd⟩ : ∃ c ds, natToDigits i.toNat = c :: ds := by
      cases hl : natToDigits i.toNat with
      | nil => exact absurd hl (natToDigits_ne_nil _)
      | cons c ds => exact ⟨c, ds, rfl⟩
    have hc : c ≠ '-' :=
      isDigit_ne (natToDigits_digits i.toNat c (hcd ▸ List.mem_cons_self c ds)) (by decide)
    rw [hcd]
    simp [hc, h]

/-! ## Claim theorems -/

/-- C1 counterexample: the claim asserts `transform(25) == 25` as a fixed
point, but the code computes `-25 + 25 = 0`, so 25 is not a fixed point. -/
theorem c1_counterexample :
    transform_coordinate 25 = 0 ∧ transform_coordinate 25 ≠ 25 := by
  constructor <;> decide

/-- C1 (amended): for every integer v the Coordinate Transformer returns
`-v + 25`, a total pure function with no error conditions; in particular
`transform(25) = 0` (the map has no integer fixed point), `transform(0) = 25`
and `transform(50) = -25`. -/
theorem c1_transform_formula :
    (∀ v : Int, transform_coordinate v = -v + 25) ∧
    transform_coordinate 25 = 0 ∧ transform_coordinate 0 = 25 ∧
    transform_coordinate 50 = -25 :=
  ⟨fun _ => rfl, by decide, by decide, by decide⟩

/-- C2: applying the Coordinate Transformer twice returns the original
value: the map is an involution on the integers. -/
theorem c2_involution : ∀ v : Int, transform_coordinate (transform_coordinate v) = v :=
  transform_involution

/-- C3: the Content Rewriter equals the one-pass left-to-right rewrite that
replaces each non-overlapping tagged-number occurrence (for both tags) and
leaves every other character unchanged; the documented example rewrites as
stated; content in which neither tag pattern matches anywhere is returned
unchanged; and each replacement numeral is the exact decimal string of the
transformed integer (parse/print round trip, sign only when negative). -/
theorem c3_content_rewrite :
    (∀ s : List Char, transform_xml_content s = contentRewriteSpec s) ∧
    transform_xml_content "<X_COORD>23</X_COORD><Y_COORD>10</Y_COORD>".toList =
      "<X_COORD>2</X_COORD><Y_COORD>15</Y_COORD>".toList ∧
    (∀ s : List Char, noMatchScan openX closeX s = true →
      noMatchScan openY closeY s = true → transform_xml_content s = s) ∧
    (∀ i : Int, parseSD (intToDigits i) = i ∧ ((intToDigits i).head? = some '-' ↔ i < 0)) := by
  refine ⟨two_pass_eq_spec, by decide, ?_, ?_⟩
  · intro s hx hy
    exact content_id_of_noMatch hx hy
  · intro i
    exact ⟨parseSD_intToDigits i, intToDigits_head_dash i⟩

theorem c3_witness :
    transform_xml_content "no coordinates here".toList = "no coordinates here".toList :=
  c3_content_rewrite.2.2.1 "no coordinates here".toList (by decide) (by decide)

/-- C10: the Content Rewriter is total: with the callback's `int()` parse
modelled fallibly, the rewrite never fails and returns exactly the total
rewrite, because every captured group is an optional sign followed by a
nonempty digit run and therefore a valid integer literal. -/
theorem c10_parse_total (s : List Char) :
    transform_xml_content_opt s = some (transform_xml_content s) :=
  transform_xml_content_opt_eq s

/-- C4: on every filename ending in dash, digit run, dash, digit run,
`.xml`, the Filename Rewriter parses the two digit runs as unsigned decimal
magnitudes, transforms each, and rebuilds prefix + `-` + first value in the
3-wide zero-padded field + `-` + second value in the 3-wide zero-padded
field + `.xml`; the documented example rewrites as stated. -/
theorem c4_filename_pattern :
    (∀ pre d1 d2 : List Char, d1 ≠ [] → (∀ c ∈ d1, c.isDigit = true) →
      d2 ≠ [] → (∀ c ∈ d2, c.isDigit = true) →
      transform_filename (pre ++ '-' :: (d1 ++ '-' :: (d2 ++ extXml))) =
        pre ++ '-' :: padTo3 (transform_coordinate (digitsVal d1)) ++
          '-' :: padTo3 (transform_coordinate (digitsVal d2)) ++ extXml) ∧
    transform_filename
        "1830002926_A2LPAC14A1-FAKY25420001-0-0_SM1C10011 25-023-010.xml".toList =
      "1830002926_A2LPAC14A1-FAKY25420001-0-0_SM1C10011 25-002-015.xml".toList := by
  refine ⟨?_, by decide⟩
  intro pre d1 d2 h1 hd1 h2 hd2
  exact transform_filename_pattern h1 hd1 h2 hd2

theorem c4_witness :
    transform_filename ("b".toList ++ '-' :: ("023".toList ++ '-' :: ("010".toList ++ extXml))) =
      "b".toList ++ '-' :: padTo3 (transform_coordinate (digitsVal "023".toList)) ++
        '-' :: padTo3 (transform_coordinate (digitsVal "010".toList)) ++ extXml :=
  c4_filename_pattern.1 "b".toList "023".toList "010".toList
    (by decide) (by decide) (by decide) (by decide)

/-- C5: for a nonempty batch, the driver writes exactly the outputs of the
files whose pipeline succeeds (in order), prints the opening count, then one
line per file — a success line or a failure line carrying the offending file
name and the error detail — and prints the completion message last,
unconditionally; a failing file never prevents later files from being
attempted, as the per-file report list covers every file. -/
theorem c5_batch_isolation {files : List FileEntry} (h : files ≠ []) :
    process_xml_files files =
      (files.filterMap okOut,
        Msg.found files.length :: (files.map reportOf ++ [Msg.done])) ∧
    (process_xml_files files).2.getLast? = some Msg.done ∧
    (∀ f ∈ files, reportOf f ∈ (process_xml_files files).2) := by
  have hmain := process_xml_files_eq h
  refine ⟨hmain, ?_, ?_⟩
  · simp only [hmain]
    rw [show (Msg.found files.length :: (files.map reportOf ++ [Msg.done])) =
        [Msg.found files.length] ++ (files.map reportOf ++ [Msg.done]) from rfl]
    exact getLast?_append_of_some (getLast?_append_of_some rfl)
  · intro f hf
    simp only [hmain]
    exact List.mem_cons_of_mem _ (List.mem_append.mpr (Or.inl (List.mem_map_of_mem reportOf hf)))

theorem c5_witness :
    process_xml_files demoFiles =
      (demoFiles.filterMap okOut,
        Msg.found demoFiles.length :: (demoFiles.map reportOf ++ [Msg.done])) ∧
    (process_xml_files demoFiles).2.getLast? = some Msg.done ∧
    (∀ f ∈ demoFiles, reportOf f ∈ (process_xml_files demoFiles).2) :=
  c5_batch_isolation (List.cons_ne_nil _ _)

/-- C6 counterexample: double application of the Content Rewriter is not the
identity on every string — a numeral with a leading zero is rewritten to its
canonical form, so the round trip changes the text. -/
theorem c6_counterexample :
    transform_xml_content (transform_xml_content "<X_COORD>00</X_COORD>".toList) ≠
      "<X_COORD>00</X_COORD>".toList := by
  decide

/-- C6 (amended): for every content string whose matched coordinate
numerals are all in canonical decimal form (no leading zeros, sign only on
negative values — exactly what the printer emits), applying the Content
Rewriter twice returns the original string, a structural round trip. -/
theorem c6_double_rewrite {s : List Char} (h : canonContent s = true) :
    transform_xml_content (transform_xml_content s) = s :=
  content_double_of_canon h

theorem c6_witness :
    canonContent "<X_COORD>23</X_COORD><Y_COORD>10</Y_COORD>".toList = true ∧
    transform_xml_content (transform_xml_content
        "<X_COORD>23</X_COORD><Y_COORD>10</Y_COORD>".toList) =
      "<X_COORD>23</X_COORD><Y_COORD>10</Y_COORD>".toList :=
  ⟨by decide, c6_double_rewrite (by decide)⟩

/-- C7: when the first matched digit group has magnitude over 25, the
transformed value is negative and the Filename Rewriter serialises it with
the sign embedded inside the 3-wide zero-padded field, without validation;
magnitude 30 produces the field `-05`. -/
theorem c7_negative_field {pre d1 d2 : List Char} (h1 : d1 ≠ [])
    (hd1 : ∀ c ∈ d1, c.isDigit = true) (h2 : d2 ≠ []) (hd2 : ∀ c ∈ d2, c.isDigit = true)
    (hbig : 25 < digitsVal d1) :
    transform_coordinate (digitsVal d1) < 0 ∧
    transform_filename (pre ++ '-' :: (d1 ++ '-' :: (d2 ++ extXml))) =
      pre ++ '-' :: ('-' :: padZeros 2 (natToDigits (digitsVal d1 - 25))) ++
        '-' :: padTo3 (transform_coordinate (digitsVal d2)) ++ extXml ∧
    (digitsVal d1 = 30 → padTo3 (transform_coordinate (digitsVal d1)) = ['-', '0', '5']) := by
  have hneg : transform_coordinate (digitsVal d1) < 0 := by
    unfold transform_coordinate
    omega
  refine ⟨hneg, ?_, ?_⟩
  · rw [transform_filename_pattern h1 hd1 h2 hd2, padTo3_neg hneg]
    have habs : (transform_coordinate (digitsVal d1)).natAbs = digitsVal d1 - 25 := by
      unfold transform_coordinate
      omega
    rw [habs]
  · intro h30
    rw [h30]
    decide

theorem c7_witness :
    transform_coordinate (digitsVal "030".toList) < 0 ∧
    transform_filename ("a".toList ++ '-' :: ("030".toList ++ '-' :: ("010".toList ++ extXml))) =
      "a".toList ++ '-' :: ('-' :: padZeros 2 (natToDigits (digitsVal "030".toList - 25))) ++
        '-' :: padTo3 (transform_coordinate (digitsVal "010".toList)) ++ extXml ∧
    (digitsVal "030".toList = 30 →
      padTo3 (transform_coordinate (digitsVal "030".toList)) = ['-', '0', '5']) :=
  c7_negative_field (by decide) (by decide) (by decide) (by decide) (by decide)

/-- C8 counterexample: a name that does not end in the
`-<digits>-<digits>.xml` pattern at the true end of the string is still
rewritten when one newline follows `.xml`, because Python `$` also matches
just before a final newline; the rewrite even drops the newline. -/
theorem c8_counterexample :
    ¬ EndsInPat "a-1-2.xml\n".toList ∧
    transform_filename "a-1-2.xml\n".toList ≠ "a-1-2.xml\n".toList := by
  constructor
  · rintro ⟨pre, d1, d2, _, _, _, _, heq⟩
    have hlast := congrArg List.getLast? heq
    rw [getLast?_pattern pre d1 d2 extXml (show extXml.getLast? = some 'l' by decide)] at hlast
    revert hlast
    decide
  · decide

/-- C8 (amended): every filename that does not end in the trailing
`-<digits>-<digits>.xml` pattern — allowing one final newline after `.xml`,
which Python `$` also accepts — is returned unchanged by the Filename
Rewriter, an identity fallback that raises no error; in the Batch Driver
such a file is therefore written under its original name. -/
theorem c8_identity_fallback :
    (∀ name : List Char, ¬ EndsInPatNl name → transform_filename name = name) ∧
    (∀ (f : FileEntry) (c : List Char), f.content = Except.ok c → ¬ EndsInPatNl f.name →
      pipelineOne f = Except.ok (f.name, transform_xml_content c)) := by
  have hmain : ∀ name : List Char, ¬ EndsInPatNl name → transform_filename name = name := by
    intro name hn
    cases hs : fnSearch name with
    | none => exact transform_filename_none hs
    | some q =>
      obtain ⟨pre, d1, d2⟩ := q
      obtain ⟨h1, hd1, h2, hd2, r, hr, heq⟩ := fnSearch_eq_some hs
      exact absurd ⟨pre, d1, d2, r, h1, hd1, h2, hd2, hr, heq⟩ hn
  refine ⟨hmain, ?_⟩
  intro f c hc hn
  simp only [pipelineOne, hc]
  rw [hmain f.name hn]

theorem c8_witness :
    transform_filename "hello.txt".toList = "hello.txt".toList :=
  c8_identity_fallback.1 "hello.txt".toList (by
    intro h
    rcases endsPatNl_getLast h with h' | h' <;> revert h' <;> decide)

theorem pad3_digits (x : Nat) : ∀ c ∈ padZeros 3 (natToDigits x), c.isDigit = true :=
  padZeros_digits (natToDigits_digits x) 3

theorem pad3_ne_nil (x : Nat) : padZeros 3 (natToDigits x) ≠ [] :=
  padZeros_ne_nil (natToDigits_ne_nil x) 3

theorem digitsVal_pad3 (x : Nat) : digitsVal (padZeros 3 (natToDigits x)) = x := by
  rw [digitsVal_padZeros, digitsVal_natToDigits]

/-- C9: on a canonically padded name `p-XXX-YYY.xml` with both magnitudes
between 0 and 25, the Filename Rewriter is an involution: applying it twice
returns the original name. -/
theorem c9_filename_involution (p : List Char) (x y : Nat) (hx : x ≤ 25) (hy : y ≤ 25) :
    transform_filename (transform_filename (p ++ '-' ::
        (padZeros 3 (natToDigits x) ++ '-' :: (padZeros 3 (natToDigits y) ++ extXml)))) =
      p ++ '-' :: (padZeros 3 (natToDigits x) ++ '-' :: (padZeros 3 (natToDigits y) ++ extXml)) := by
  have step : ∀ z : Nat, z ≤ 25 →
      padTo3 (transform_coordinate (digitsVal (padZeros 3 (natToDigits z)))) =
        padZeros 3 (natToDigits (25 - z)) := by
    intro z hz
    rw [digitsVal_pad3]
    have hnn : 0 ≤ transform_coordinate z := by
      unfold transform_coordinate
      omega
    rw [padTo3_nonneg hnn]
    have htn : (transform_coordinate (z : Int)).toNat = 25 - z := by
      unfold transform_coordinate
      omega
    rw [htn]
  rw [transform_filename_pattern (pad3_ne_nil x) (pad3_digits x) (pad3_ne_nil y) (pad3_digits y)]
  rw [step x hx, step y hy]
  rw [show p ++ '-' :: padZeros 3 (natToDigits (25 - x)) ++
      '-' :: padZeros 3 (natToDigits (25 - y)) ++ extXml =
      p ++ '-' :: (padZeros 3 (natToDigits (25 - x)) ++
        '-' :: (padZeros 3 (natToDigits (25 - y)) ++ extXml)) by
    simp [List.cons_append, List.append_assoc]]
  rw [transform_filename_pattern (pad3_ne_nil (25 - x)) (pad3_digits (25 - x))
    (pad3_ne_nil (25 - y)) (pad3_digits (25 - y))]
  rw [step (25 - x) (by omega), step (25 - y) (by omega)]
  rw [show 25 - (25 - x) = x by omega, show 25 - (25 - y) = y by omega]
  simp [List.cons_append, List.append_assoc]

theorem c9_witness :
    transform_filename (transform_filename ("f".toList ++ '-' ::
        (padZeros 3 (natToDigits 23) ++ '-' :: (padZeros 3 (natToDigits 10) ++ extXml)))) =
      "f".toList ++ '-' :: (padZeros 3 (natToDigits 23) ++ '-' ::
        (padZeros 3 (natToDigits 10) ++ extXml)) :=
  c9_filename_involution "f".toList 23 10 (by decide) (by decide)

end TransferXY
